import Mathlib

/-!
Shallow embedding of ContractionState (src/openlib/scintilla/ContractionState.cxx).

The component maps document lines to display lines under folding (visibility)
and wrapping (per-line heights).  It has two representations:

* trivial ("one to one") mode: only a line count is stored;
* projected mode: five auxiliary structures, one entry per document line
  (visibility flags, expansion flags, heights, fold display texts) plus a
  cumulative partition index of display-row boundaries.

The auxiliary collaborator structures (RunStyles, Partitioning, SparseVector,
UniqueString) are not part of src/; they are modelled from the spec, section 6
(external collaborator contracts), as plain Lean lists:

* a run-coded attribute array is a list with element access defaulting at
  out-of-range reads (negative positions read the first run, matching the
  lower clamp of the partition search described by the spec contracts);
* the cumulative partition index is a list of cumulative display-row offsets
  (one boundary per partition plus a terminal boundary); insert-text shifts
  every boundary after the given index;
* the sparse overlay store is a list of optional strings defaulting to none.

Sci::Line is a signed integer type, modelled as Int (no overflow at the sizes
relevant to these claims); the stored height is a C int, also modelled as Int.
-/

/-- Modelled from the spec: run-coded attribute array element read.  A
negative position falls into the first run (the partition search clamps
below at the first boundary); a position at or beyond the length reads the
default value of the structure. -/
def valueAtI (dflt : α) (l : List α) (i : Int) : α :=
  if i < 0 then l.headD dflt else l.getD i.toNat dflt

/-- Modelled from the spec: sparse overlay store element read, defaulting to
none; a negative position holds no value. -/
def foldAtI (l : List (Option String)) (i : Int) : Option String :=
  if i < 0 then none else l.getD i.toNat none

/-- Insert an element at a nonnegative position (no-op beyond the length,
which the component never does under its documented usage). -/
def insAt : Nat → α → List α → List α
  | 0, v, l => v :: l
  | _ + 1, _, [] => []
  | n + 1, v, x :: xs => x :: insAt n v xs

/-- Remove the element at a position (no-op beyond the length). -/
def delAt : Nat → List α → List α
  | _, [] => []
  | 0, _ :: xs => xs
  | n + 1, x :: xs => x :: delAt n xs

/-- Add delta to every entry at an index strictly greater than the given one. -/
def addAfter : Nat → Int → List Int → List Int
  | _, _, [] => []
  | 0, dl, x :: xs => x :: xs.map (fun y => y + dl)
  | n + 1, dl, x :: xs => x :: addAfter n dl xs

/-- Modelled from the spec: write a value at a position of a run-coded array
or sparse store (no-op at a negative or out-of-range position). -/
def setValI (i : Int) (v : α) (l : List α) : List α :=
  if i < 0 then l else l.set i.toNat v

/-- Modelled from the spec: insert one unit of space at a position
(entries at or after the position shift up by one). -/
def insAtI (i : Int) (v : α) (l : List α) : List α :=
  if i < 0 then l else insAt i.toNat v l

/-- Modelled from the spec: delete the entry at a position. -/
def delAtI (i : Int) (l : List α) : List α :=
  if i < 0 then l else delAt i.toNat l

/-- Modelled from the spec: Partitioning InsertText, shifting every cumulative
boundary after the insertion point by the signed delta. -/
def insertTextP (i : Int) (dl : Int) (b : List Int) : List Int :=
  if i < 0 then b.map (fun y => y + dl) else addAfter i.toNat dl b

/-- Modelled from the spec: Partitioning PositionFromPartition; a negative
partition index returns 0 (the guard of the collaborator contract). -/
def positionFromPartition (b : List Int) (i : Int) : Int :=
  if i < 0 then 0 else b.getD i.toNat 0

/-- Modelled from the spec: Partitioning PartitionFromPosition; the partition
whose cumulative span contains the offset, i.e. the largest partition index
whose boundary is at most the offset (0 when the offset is below every
boundary, the last partition when it is beyond the final boundary). -/
def partitionFromPosition (b : List Int) (pos : Int) : Int :=
  Int.ofNat ((List.range (b.length - 1)).foldl
    (fun acc i => if b.getD i 0 ≤ pos then i else acc) 0)

/-- Projected-mode data: one entry per document line in the four attribute
lists, plus the partition body of cumulative display-row boundaries (one
boundary per document line, plus one partition created at construction,
plus the terminal boundary: length = lines + 2). -/
structure ProjData where
  visible : List Bool
  expanded : List Bool
  heights : List Int
  foldDisplayTexts : List (Option String)
  body : List Int
deriving DecidableEq, Repr

/-- ContractionState: trivial mode stores only the document line count;
projected mode stores the auxiliary structures. -/
inductive CState where
  | oneToOne (linesInDocument : Int)
  | proj (d : ProjData)
deriving DecidableEq, Repr

/-- The freshly constructed state: one document line, trivial mode. -/
def initial : CState := .oneToOne 1

/-- OneToOne(): whether the trivial representation is active. -/
def isOneToOne : CState → Bool
  | .oneToOne _ => true
  | .proj _ => false

/-- LinesInDoc() in projected mode: Partitions() - 1. -/
def linesInDocP (d : ProjData) : Int := (d.body.length : Int) - 2

/-- LinesInDoc(). -/
def linesInDoc : CState → Int
  | .oneToOne n => n
  | .proj d => linesInDocP d

/-- LinesDisplayed() in projected mode: PositionFromPartition(LinesInDoc()). -/
def linesDisplayedP (d : ProjData) : Int :=
  positionFromPartition d.body (linesInDocP d)

/-- LinesDisplayed(). -/
def linesDisplayed : CState → Int
  | .oneToOne n => n
  | .proj d => linesDisplayedP d

/-- DisplayFromDoc in projected mode: clamp the document line to the
partition count, then read the cumulative boundary. -/
def displayFromDocP (b : List Int) (l : Int) : Int :=
  positionFromPartition b (if l > (b.length : Int) - 1 then (b.length : Int) - 1 else l)

/-- DisplayFromDoc(lineDoc). -/
def displayFromDoc : CState → Int → Int
  | .oneToOne n, l => if l ≤ n then l else n
  | .proj d, l => displayFromDocP d.body l

/-- DocFromDisplay(lineDisplay).  Trivial mode returns the argument
unchanged; projected mode clamps below at 0, maps anything beyond the
display count through the final boundary, and otherwise searches the
partition index. -/
def docFromDisplay : CState → Int → Int
  | .oneToOne _, v => v
  | .proj d, v =>
    if v ≤ 0 then 0
    else if v > linesDisplayedP d then partitionFromPosition d.body (linesDisplayedP d)
    else partitionFromPosition d.body v

/-- GetVisible in projected mode (an index at or beyond the tracked range is
reported visible; the stored values and that fail-open default coincide in
the list model). -/
def getVisibleP (d : ProjData) (l : Int) : Bool :=
  valueAtI true d.visible l

/-- GetVisible(lineDoc). -/
def getVisible : CState → Int → Bool
  | .oneToOne _, _ => true
  | .proj d, l => getVisibleP d l

/-- GetExpanded(lineDoc). -/
def getExpanded : CState → Int → Bool
  | .oneToOne _, _ => true
  | .proj d, l => valueAtI true d.expanded l

/-- GetHeight(lineDoc). -/
def getHeight : CState → Int → Int
  | .oneToOne _, _ => 1
  | .proj d, l => valueAtI 1 d.heights l

/-- HiddenLines(): in projected mode, whether some visibility flag is off. -/
def hiddenLines : CState → Bool
  | .oneToOne _ => false
  | .proj d => !(d.visible.all (fun b => b))

/-- GetFoldDisplayText(lineDoc).  The outer Option marks definedness: in
trivial mode the source dereferences the null foldDisplayTexts unique_ptr
(the structures exist only in projected mode), which is undefined behavior,
modelled as the outer none.  In projected mode the stored label (inner
Option: none models a null pointer, some a C string) is returned. -/
def getFoldDisplayText : CState → Int → Option (Option String)
  | .oneToOne _, _ => none
  | .proj d, l => some (foldAtI d.foldDisplayTexts l)

/-- GetFoldDisplayTextShown(lineDoc): not expanded, and the fold text pointer
is non-null (the && short-circuits, so the trivial-mode null store is never
dereferenced: GetExpanded is true there). -/
def getFoldDisplayTextShown (s : CState) (l : Int) : Bool :=
  !(getExpanded s l) && ((getFoldDisplayText s l).getD none).isSome

/-- InsertLine(lineDoc) in projected mode: insert default attribute entries
(the run-coded insert-space plus set-value pairs of the source), then insert
a partition boundary at the display position of the line and give it unit
span. -/
def insertLineP (d : ProjData) (l : Int) : ProjData :=
  let visible := setValI l true (insAtI l true d.visible)
  let expanded := setValI l true (insAtI l true d.expanded)
  let heights := setValI l 1 (insAtI l (1 : Int) d.heights)
  let folds := setValI l none (insAtI l (none : Option String) d.foldDisplayTexts)
  let lineDisplay := displayFromDocP d.body l
  let body := insertTextP l 1 (insAtI l lineDisplay d.body)
  ⟨visible, expanded, heights, folds, body⟩

/-- DeleteLine(lineDoc) in projected mode: if the line is visible, first
collapse its display span, then remove its partition boundary and its
attribute entries. -/
def deleteLineP (d : ProjData) (l : Int) : ProjData :=
  let b1 := if getVisibleP d l then insertTextP l (-(valueAtI 1 d.heights l)) d.body
            else d.body
  ⟨delAtI l d.visible, delAtI l d.expanded, delAtI l d.heights,
   delAtI l d.foldDisplayTexts, delAtI l b1⟩

/-- The projected-mode loop of InsertLines: insert count lines at positions
lineDoc, lineDoc + 1, ... -/
def insLinesGoP (p : Int) : Nat → ProjData → ProjData
  | 0, d => d
  | k + 1, d => insLinesGoP (p + 1) k (insertLineP d p)

/-- InsertLines(lineDoc, lineCount).  The representation never switches
inside the loop, so the trivial branch is the count increment iterated. -/
def insertLines (s : CState) (p k : Int) : CState :=
  match s with
  | .oneToOne n => .oneToOne (n + (k.toNat : Int))
  | .proj d => .proj (insLinesGoP p k.toNat d)

/-- The projected-mode loop of DeleteLines: delete count times at the same
position. -/
def delLinesGoP (p : Int) : Nat → ProjData → ProjData
  | 0, d => d
  | k + 1, d => delLinesGoP p k (deleteLineP d p)

/-- DeleteLines(lineDoc, lineCount). -/
def deleteLines (s : CState) (p k : Int) : CState :=
  match s with
  | .oneToOne n => .oneToOne (n - (k.toNat : Int))
  | .proj d => .proj (delLinesGoP p k.toNat d)

/-- The fresh projected structures allocated by EnsureData before the
replaying insertions: empty attribute arrays and a partition index holding
one partition ([0, 0]). -/
def emptyProj : ProjData := ⟨[], [], [], [], [0, 0]⟩

/-- EnsureData(): materialize the projected representation by replaying the
current line count as insertions at 0; a no-op when already projected. -/
def ensureDataP : CState → ProjData
  | .oneToOne n => insLinesGoP 0 n.toNat emptyProj
  | .proj d => d

/-- The body of the SetVisible loop over the closed line range: for each line
whose visibility differs from the target, flip the flag, shift the partition
boundaries after the line by the signed height, and accumulate the delta. -/
def svLoop (isVis : Bool) : Int → Nat → ProjData → Int → ProjData × Int
  | _, 0, d, delta => (d, delta)
  | line, c + 1, d, delta =>
    if getVisibleP d line ≠ isVis then
      let difference := if isVis then valueAtI 1 d.heights line
                        else -(valueAtI 1 d.heights line)
      svLoop isVis (line + 1) c
        { d with visible := setValI line isVis d.visible,
                 body := insertTextP line difference d.body }
        (delta + difference)
    else svLoop isVis (line + 1) c d delta

/-- SetVisible(lineDocStart, lineDocEnd, isVisible).  Short-circuits in
trivial mode when showing; otherwise materializes, applies the loop when the
range is valid, and reports whether the summed display-row delta is nonzero. -/
def setVisible (s : CState) (a b : Int) (isVis : Bool) : CState × Bool :=
  if isOneToOne s && isVis then (s, false)
  else
    let d := ensureDataP s
    if a ≤ b ∧ 0 ≤ a ∧ b < linesInDocP d then
      let r := svLoop isVis a (b - a + 1).toNat d 0
      (.proj r.1, r.2 ≠ 0)
    else (.proj d, false)

/-- SetExpanded(lineDoc, isExpanded). -/
def setExpanded (s : CState) (l : Int) (e : Bool) : CState × Bool :=
  if isOneToOne s && e then (s, false)
  else
    let d := ensureDataP s
    if e ≠ valueAtI true d.expanded l then
      (.proj { d with expanded := setValI l e d.expanded }, true)
    else (.proj d, false)

/-- SetFoldDisplayText(lineDoc, text): materialize, then store when the
previous value is null, the new text is null, or the bytes differ. -/
def setFoldDisplayText (s : CState) (l : Int) (text : Option String) : CState × Bool :=
  let d := ensureDataP s
  let foldText := foldAtI d.foldDisplayTexts l
  if foldText.isNone || text.isNone || foldText ≠ text then
    (.proj { d with foldDisplayTexts := setValI l text d.foldDisplayTexts }, true)
  else (.proj d, false)

/-- SetHeight(lineDoc, height).  Trivial-mode shortcut for height 1; the only
range test is lineDoc < LinesInDoc(); when the height changes, a visible line
shifts the partition boundaries after it by the difference, and the stored
height is updated regardless of visibility. -/
def setHeight (s : CState) (l : Int) (h : Int) : CState × Bool :=
  if isOneToOne s && h == 1 then (s, false)
  else if l < linesInDoc s then
    let d := ensureDataP s
    if valueAtI 1 d.heights l ≠ h then
      let d1 := if getVisibleP d l
                then { d with body := insertTextP l (h - valueAtI 1 d.heights l) d.body }
                else d
      (.proj { d1 with heights := setValI l h d1.heights }, true)
    else (.proj d, false)
  else (s, false)

/-- ShowAll(): capture the line count, discard the structures, return to
trivial mode. -/
def showAll (s : CState) : CState := .oneToOne (linesInDoc s)

/-- Modelled from the spec: RunStyles EndRun scan, walking forward from the
start index while the value matches; the fuel bounds the walk at the length. -/
def endRunFrom (xs : List Bool) (v : Bool) : Nat → Nat → Nat
  | 0, j => j
  | fuel + 1, j => if xs.getD j true = v then endRunFrom xs v fuel (j + 1) else j

/-- Modelled from the spec: RunStyles EndRun(position): the first index after
the position where the stored value differs (the length when none does). -/
def endRun (xs : List Bool) (i : Nat) : Nat :=
  endRunFrom xs (xs.getD i true) (xs.length - (i + 1)) (i + 1)

/-- ContractedNext(lineDocStart): -1 in trivial mode; the line itself when
not expanded; otherwise the end of its expansion run when that is still a
document line, else -1. -/
def contractedNext (s : CState) (l : Int) : Int :=
  match s with
  | .oneToOne _ => -1
  | .proj d =>
    if !(valueAtI true d.expanded l) then l
    else
      let nx : Int := (endRun d.expanded l.toNat : Nat)
      if nx < linesInDocP d then nx else -1

/-- Sanity checks on the scenarios of the spec, gathered in one record:
after growing to five lines and hiding lines 1 and 2, three display rows
remain, DisplayFromDoc(3) is 1 and DocFromDisplay(1) is 3; SetHeight(0, 3)
on the one-line document yields three display rows and setting the height
back to 1 restores the materialized trivial state. -/
theorem sanity_spec_scenarios :
    linesInDoc initial = 1 ∧
    linesInDoc (insertLines initial 0 4) = 5 ∧
    linesDisplayed (insertLines initial 0 4) = 5 ∧
    linesDisplayed (setVisible (insertLines initial 0 4) 1 2 false).1 = 3 ∧
    hiddenLines (setVisible (insertLines initial 0 4) 1 2 false).1 = true ∧
    displayFromDoc (setVisible (insertLines initial 0 4) 1 2 false).1 3 = 1 ∧
    docFromDisplay (setVisible (insertLines initial 0 4) 1 2 false).1 1 = 3 ∧
    linesDisplayed (setHeight initial 0 3).1 = 3 ∧
    (setHeight (setHeight initial 0 3).1 0 1).1 = .proj (ensureDataP initial) := by
  decide

/-! ## List toolkit: getD and length lemmas for the surgery operations -/

theorem getD_nil (i : Nat) (d : α) : ([] : List α).getD i d = d := by
  simp [List.getD]

theorem getD_cons_zero (x : α) (xs : List α) (d : α) : (x :: xs).getD 0 d = x := rfl

theorem getD_cons_succ (x : α) (xs : List α) (i : Nat) (d : α) :
    (x :: xs).getD (i + 1) d = xs.getD i d := rfl

theorem headD_eq_getD_zero (l : List α) (d : α) : l.headD d = l.getD 0 d := by
  cases l <;> rfl

theorem insAt_length {p : Nat} {v : α} {l : List α} (h : p ≤ l.length) :
    (insAt p v l).length = l.length + 1 := by
  induction p generalizing l with
  | zero => rfl
  | succ p ih =>
    cases l with
    | nil => simp at h
    | cons x xs => simp only [insAt, List.length_cons]; rw [ih (by simpa using h)]

theorem insAt_getD_lt {p i : Nat} {v d : α} {l : List α} (hi : i < p) :
    (insAt p v l).getD i d = l.getD i d := by
  induction p generalizing i l with
  | zero => omega
  | succ p ih =>
    cases l with
    | nil => rfl
    | cons x xs =>
      cases i with
      | zero => rfl
      | succ i => simpa [insAt, getD_cons_succ] using ih (by omega)

theorem insAt_getD_self {p : Nat} {v d : α} {l : List α} (h : p ≤ l.length) :
    (insAt p v l).getD p d = v := by
  induction p generalizing l with
  | zero => rfl
  | succ p ih =>
    cases l with
    | nil => simp at h
    | cons x xs => simpa [insAt, getD_cons_succ] using ih (by simpa using h)

theorem insAt_getD_succ {p i : Nat} {v d : α} {l : List α} (h : p ≤ l.length)
    (hi : p ≤ i) : (insAt p v l).getD (i + 1) d = l.getD i d := by
  induction p generalizing i l with
  | zero => rfl
  | succ p ih =>
    cases l with
    | nil => simp at h
    | cons x xs =>
      cases i with
      | zero => omega
      | succ i =>
        simpa [insAt, getD_cons_succ] using ih (by simpa using h) (by omega)

theorem delAt_length {p : Nat} {l : List α} (h : p < l.length) :
    (delAt p l).length + 1 = l.length := by
  induction p generalizing l with
  | zero => cases l with
    | nil => simp at h
    | cons x xs => rfl
  | succ p ih =>
    cases l with
    | nil => simp at h
    | cons x xs => simp only [delAt, List.length_cons]; rw [ih (by simpa using h)]

theorem delAt_getD_lt {p i : Nat} {d : α} {l : List α} (hi : i < p) :
    (delAt p l).getD i d = l.getD i d := by
  induction p generalizing i l with
  | zero => omega
  | succ p ih =>
    cases l with
    | nil => rfl
    | cons x xs =>
      cases i with
      | zero => rfl
      | succ i => simpa [delAt, getD_cons_succ] using ih (by omega)

theorem delAt_getD_ge {p i : Nat} {d : α} {l : List α} (hi : p ≤ i) :
    (delAt p l).getD i d = l.getD (i + 1) d := by
  induction p generalizing i l with
  | zero =>
    cases l with
    | nil => simp [delAt]
    | cons x xs => rfl
  | succ p ih =>
    cases l with
    | nil => simp [delAt]
    | cons x xs =>
      cases i with
      | zero => omega
      | succ i => simpa [delAt, getD_cons_succ] using ih (by omega)

theorem addAfter_length (p : Nat) (dl : Int) (l : List Int) :
    (addAfter p dl l).length = l.length := by
  induction p generalizing l with
  | zero => cases l with
    | nil => rfl
    | cons x xs => simp [addAfter]
  | succ p ih =>
    cases l with
    | nil => rfl
    | cons x xs => simp only [addAfter, List.length_cons]; rw [ih]

theorem addAfter_getD_le {p i : Nat} {dl : Int} {l : List Int} (hi : i ≤ p) :
    (addAfter p dl l).getD i 0 = l.getD i 0 := by
  induction p generalizing i l with
  | zero =>
    cases l with
    | nil => rfl
    | cons x xs => interval_cases i; rfl
  | succ p ih =>
    cases l with
    | nil => rfl
    | cons x xs =>
      cases i with
      | zero => rfl
      | succ i => simpa [addAfter, getD_cons_succ] using ih (by omega)

theorem addAfter_getD_gt {p i : Nat} {dl : Int} {l : List Int} (hi : p < i)
    (hl : i < l.length) : (addAfter p dl l).getD i 0 = l.getD i 0 + dl := by
  induction p generalizing i l with
  | zero =>
    cases l with
    | nil => simp at hl
    | cons x xs =>
      cases i with
      | zero => omega
      | succ i =>
        simp only [addAfter, getD_cons_succ]
        rw [List.getD_eq_getElem?_getD, List.getD_eq_getElem?_getD,
          List.getElem?_map]
        have hx : i < xs.length := by simpa using hl
        simp [List.getElem?_eq_getElem hx]
  | succ p ih =>
    cases l with
    | nil => simp at hl
    | cons x xs =>
      cases i with
      | zero => omega
      | succ i =>
        simpa [addAfter, getD_cons_succ] using ih (by omega) (by simpa using hl)

theorem addAfter_zero (p : Nat) (l : List Int) : addAfter p 0 l = l := by
  induction p generalizing l with
  | zero => cases l with
    | nil => rfl
    | cons x xs => simp [addAfter]
  | succ p ih =>
    cases l with
    | nil => rfl
    | cons x xs => simp only [addAfter]; rw [ih]

theorem addAfter_addAfter (p : Nat) (a b : Int) (l : List Int) :
    addAfter p a (addAfter p b l) = addAfter p (b + a) l := by
  induction p generalizing l with
  | zero =>
    cases l with
    | nil => rfl
    | cons x xs => simp [addAfter, List.map_map]
  | succ p ih =>
    cases l with
    | nil => rfl
    | cons x xs => simp only [addAfter]; rw [ih]

theorem set_getD_self {p : Nat} {v d : α} {l : List α} (h : p < l.length) :
    (l.set p v).getD p d = v := by
  induction p generalizing l with
  | zero => cases l with
    | nil => simp at h
    | cons x xs => rfl
  | succ p ih =>
    cases l with
    | nil => simp at h
    | cons x xs => simpa [List.set, getD_cons_succ] using ih (by simpa using h)

theorem set_getD_ne {p i : Nat} {v d : α} {l : List α} (h : p ≠ i) :
    (l.set p v).getD i d = l.getD i d := by
  induction p generalizing i l with
  | zero =>
    cases l with
    | nil => rfl
    | cons x xs =>
      cases i with
      | zero => omega
      | succ i => rfl
  | succ p ih =>
    cases l with
    | nil => rfl
    | cons x xs =>
      cases i with
      | zero => rfl
      | succ i => simpa [List.set, getD_cons_succ] using ih (by omega)

/-! ## Coercion bridges: the Int-indexed collaborator wrappers at a Nat index -/

theorem valueAtI_coe (dflt : α) (l : List α) (p : Nat) :
    valueAtI dflt l (p : Int) = l.getD p dflt := by
  simp [valueAtI]

theorem foldAtI_coe (l : List (Option String)) (p : Nat) :
    foldAtI l (p : Int) = l.getD p none := by
  simp [foldAtI]

theorem setValI_coe (v : α) (l : List α) (p : Nat) :
    setValI (p : Int) v l = l.set p v := by
  simp [setValI]

theorem insAtI_coe (v : α) (l : List α) (p : Nat) :
    insAtI (p : Int) v l = insAt p v l := by
  simp [insAtI]

theorem delAtI_coe (l : List α) (p : Nat) :
    delAtI (p : Int) l = delAt p l := by
  simp [delAtI]

theorem insertTextP_coe (dl : Int) (b : List Int) (p : Nat) :
    insertTextP (p : Int) dl b = addAfter p dl b := by
  simp [insertTextP]

theorem positionFromPartition_coe (b : List Int) (p : Nat) :
    positionFromPartition b (p : Int) = b.getD p 0 := by
  simp [positionFromPartition]

/-! ## Structural invariants -/

/-- Length synchronization of the projected structures: the four attribute
lists hold one entry per document line, the partition body holds one boundary
per document line plus the construction partition plus the terminal boundary. -/
def Lens (d : ProjData) (n : Nat) : Prop :=
  d.visible.length = n ∧ d.expanded.length = n ∧ d.heights.length = n ∧
  d.foldDisplayTexts.length = n ∧ d.body.length = n + 2

/-- The display-row span a document line contributes: its height when
visible, zero when hidden. -/
def spanB (d : ProjData) (i : Nat) : Int :=
  if d.visible.getD i true then d.heights.getD i 1 else 0

/-- Well-formedness of the projected representation at a given line count:
synchronized lengths, the first boundary at 0, the terminal boundary
duplicating the last one, each consecutive boundary difference equal to the
line span, and positive heights (the spec records heights as positive
integers supplied by the layout engine). -/
structure WFPn (d : ProjData) (n : Nat) : Prop where
  lens : Lens d n
  base : d.body.getD 0 0 = 0
  sent : d.body.getD (n + 1) 0 = d.body.getD n 0
  span : ∀ i, i < n → d.body.getD (i + 1) 0 = d.body.getD i 0 + spanB d i
  hpos : ∀ i, i < n → 1 ≤ d.heights.getD i 1

/-- The state invariant: a nonnegative count in trivial mode, well-formed
structures in projected mode. -/
def CInv : CState → Prop
  | .oneToOne n => 0 ≤ n
  | .proj d => WFPn d d.visible.length

theorem wfpn_emptyProj : WFPn emptyProj 0 :=
  ⟨⟨rfl, rfl, rfl, rfl, rfl⟩, rfl, rfl,
   fun i hi => absurd hi (Nat.not_lt_zero i),
   fun i hi => absurd hi (Nat.not_lt_zero i)⟩

theorem cinv_proj_of_wfpn {d : ProjData} {n : Nat} (h : WFPn d n) : CInv (.proj d) := by
  show WFPn d d.visible.length
  rw [h.lens.1]
  exact h

theorem wfpn_of_cinv_proj {d : ProjData} (h : CInv (.proj d)) :
    WFPn d d.visible.length := h

theorem lens_insertLineP {d : ProjData} {n p : Nat} (hl : Lens d n) (hp : p ≤ n) :
    Lens (insertLineP d (p : Int)) (n + 1) := by
  obtain ⟨h1, h2, h3, h4, h5⟩ := hl
  refine ⟨?_, ?_, ?_, ?_, ?_⟩ <;>
    simp only [insertLineP, setValI_coe, insAtI_coe, insertTextP_coe,
      List.length_set, addAfter_length] <;>
    rw [insAt_length (by omega)] <;> omega

theorem lens_deleteLineP {d : ProjData} {n p : Nat} (hl : Lens d (n + 1)) (hp : p ≤ n) :
    Lens (deleteLineP d (p : Int)) n := by
  obtain ⟨h1, h2, h3, h4, h5⟩ := hl
  have hb : (if getVisibleP d (p : Int)
      then insertTextP (p : Int) (-(valueAtI 1 d.heights (p : Int))) d.body
      else d.body).length = n + 3 := by
    split <;> first
    | (simp only [insertTextP_coe, addAfter_length]; omega)
    | omega
  have e1 := delAt_length (p := p) (l := d.visible) (by omega)
  have e2 := delAt_length (p := p) (l := d.expanded) (by omega)
  have e3 := delAt_length (p := p) (l := d.heights) (by omega)
  have e4 := delAt_length (p := p) (l := d.foldDisplayTexts) (by omega)
  have e5 := delAt_length (p := p) (l := (if getVisibleP d (p : Int)
      then insertTextP (p : Int) (-(valueAtI 1 d.heights (p : Int))) d.body
      else d.body)) (by omega)
  refine ⟨?_, ?_, ?_, ?_, ?_⟩ <;> simp only [deleteLineP, delAtI_coe] <;> omega

/-! ## Pointwise views of InsertLine and DeleteLine at a Nat position -/

theorem insSet_getD_lt {p i : Nat} {v w d : α} {l : List α} (hi : i < p) :
    ((insAt p v l).set p w).getD i d = l.getD i d := by
  rw [set_getD_ne (by omega), insAt_getD_lt hi]

theorem insSet_getD_self {p : Nat} {v w d : α} {l : List α} (h : p ≤ l.length) :
    ((insAt p v l).set p w).getD p d = w :=
  set_getD_self (by rw [insAt_length h]; omega)

theorem insSet_getD_succ {p i : Nat} {v w d : α} {l : List α} (h : p ≤ l.length)
    (hi : p ≤ i) : ((insAt p v l).set p w).getD (i + 1) d = l.getD i d := by
  rw [set_getD_ne (by omega), insAt_getD_succ h hi]

theorem displayFromDocP_getD {b : List Int} {n p : Nat} (hb : b.length = n + 2)
    (hp : p ≤ n + 1) : displayFromDocP b (p : Int) = b.getD p 0 := by
  unfold displayFromDocP
  rw [hb, if_neg (by push_cast; omega), positionFromPartition_coe]

theorem insertLineP_eq (d : ProjData) (p : Nat) :
    insertLineP d (p : Int) =
      ⟨(insAt p true d.visible).set p true,
       (insAt p true d.expanded).set p true,
       (insAt p (1 : Int) d.heights).set p 1,
       (insAt p (none : Option String) d.foldDisplayTexts).set p none,
       addAfter p 1 (insAt p (displayFromDocP d.body (p : Int)) d.body)⟩ := by
  simp [insertLineP, setValI_coe, insAtI_coe, insertTextP_coe]

theorem deleteLineP_eq (d : ProjData) (p : Nat) :
    deleteLineP d (p : Int) =
      ⟨delAt p d.visible, delAt p d.expanded, delAt p d.heights,
       delAt p d.foldDisplayTexts,
       delAt p (addAfter p (-(spanB d p)) d.body)⟩ := by
  have hv : getVisibleP d (p : Int) = d.visible.getD p true := by
    simp [getVisibleP, valueAtI_coe]
  simp only [deleteLineP, delAtI_coe, insertTextP_coe, hv, valueAtI_coe, spanB]
  by_cases h : d.visible.getD p true = true
  · rw [if_pos h, if_pos h]
  · rw [if_neg h, if_neg h, neg_zero, addAfter_zero]

theorem insBody_getD_le {p i n : Nat} {b : List Int} (hb : b.length = n + 2)
    (hp : p ≤ n) (hi : i ≤ p) :
    (addAfter p 1 (insAt p (b.getD p 0) b)).getD i 0 = b.getD i 0 := by
  rw [addAfter_getD_le hi]
  rcases Nat.lt_or_ge i p with h | h
  · exact insAt_getD_lt h
  · have hip : i = p := by omega
    subst hip
    exact insAt_getD_self (by omega)

theorem insBody_getD_succ {p i n : Nat} {b : List Int} (hb : b.length = n + 2)
    (hp : p ≤ n) (hi : p ≤ i) (hi2 : i ≤ n + 1) :
    (addAfter p 1 (insAt p (b.getD p 0) b)).getD (i + 1) 0 = b.getD i 0 + 1 := by
  rw [addAfter_getD_gt (by omega) (by rw [insAt_length (by omega)]; omega),
    insAt_getD_succ (by omega) hi]

theorem wfpn_insertLineP {d : ProjData} {n p : Nat} (hw : WFPn d n) (hp : p ≤ n) :
    WFPn (insertLineP d (p : Int)) (n + 1) := by
  obtain ⟨hv, he, hh, hf, hb⟩ := hw.lens
  have hlen2 : Lens (insertLineP d (p : Int)) (n + 1) :=
    lens_insertLineP ⟨hv, he, hh, hf, hb⟩ (by omega)
  have hdfd : displayFromDocP d.body (p : Int) = d.body.getD p 0 :=
    displayFromDocP_getD hb (by omega)
  rw [insertLineP_eq, hdfd] at hlen2 ⊢
  have hple : p ≤ d.visible.length := by omega
  refine ⟨hlen2, ?_, ?_, ?_, ?_⟩
  · exact (insBody_getD_le hb hp (Nat.zero_le p)).trans hw.base
  · rw [show n + 1 + 1 = (n + 1) + 1 from rfl,
      insBody_getD_succ (i := n + 1) hb hp (by omega) (by omega),
      insBody_getD_succ (i := n) hb hp (by omega) (by omega), hw.sent]
  · intro i hi
    rcases Nat.lt_trichotomy i p with hip | hip | hip
    · have hin : i < n := by omega
      have h1 : i + 1 ≤ p := by omega
      show (addAfter p 1 (insAt p (d.body.getD p 0) d.body)).getD (i + 1) 0 = _
      rw [insBody_getD_le hb hp h1, insBody_getD_le hb hp (by omega)]
      have hsp : spanB (insertLineP d (p : Int)) i = spanB d i := by
        rw [insertLineP_eq, hdfd]
        show (if ((insAt p true d.visible).set p true).getD i true = true
          then ((insAt p (1 : Int) d.heights).set p 1).getD i 1 else 0) = _
        rw [insSet_getD_lt hip, insSet_getD_lt hip]
        rfl
      rw [insertLineP_eq, hdfd] at hsp
      rw [hsp]
      exact hw.span i hin
    · subst hip
      rw [insBody_getD_succ hb hp (by omega) (by omega),
        insBody_getD_le hb hp (by omega)]
      have hsp : spanB ⟨(insAt i true d.visible).set i true,
          (insAt i true d.expanded).set i true,
          (insAt i (1 : Int) d.heights).set i 1,
          (insAt i (none : Option String) d.foldDisplayTexts).set i none,
          addAfter i 1 (insAt i (d.body.getD i 0) d.body)⟩ i = 1 := by
        show (if ((insAt i true d.visible).set i true).getD i true = true
          then ((insAt i (1 : Int) d.heights).set i 1).getD i 1 else 0) = 1
        rw [insSet_getD_self hple, insSet_getD_self (by omega)]
        rfl
      rw [hsp]
    · obtain ⟨j, rfl⟩ : ∃ j, i = j + 1 := ⟨i - 1, by omega⟩
      have hpj : p ≤ j := by omega
      have hjn : j < n := by omega
      rw [insBody_getD_succ hb hp (by omega) (by omega),
        insBody_getD_succ hb hp (by omega) (by omega)]
      have hsp : spanB ⟨(insAt p true d.visible).set p true,
          (insAt p true d.expanded).set p true,
          (insAt p (1 : Int) d.heights).set p 1,
          (insAt p (none : Option String) d.foldDisplayTexts).set p none,
          addAfter p 1 (insAt p (d.body.getD p 0) d.body)⟩ (j + 1) = spanB d j := by
        show (if ((insAt p true d.visible).set p true).getD (j + 1) true = true
          then ((insAt p (1 : Int) d.heights).set p 1).getD (j + 1) 1 else 0) = _
        rw [insSet_getD_succ hple hpj, insSet_getD_succ (by omega) hpj]
        rfl
      rw [hsp, hw.span j hjn]
      ring
  · intro i hi
    show 1 ≤ ((insAt p (1 : Int) d.heights).set p 1).getD i 1
    rcases Nat.lt_trichotomy i p with hip | hip | hip
    · rw [insSet_getD_lt hip]
      exact hw.hpos i (by omega)
    · subst hip
      rw [insSet_getD_self (by omega)]
    · obtain ⟨j, rfl⟩ : ∃ j, i = j + 1 := ⟨i - 1, by omega⟩
      rw [insSet_getD_succ (by omega) (by omega)]
      exact hw.hpos j (by omega)

theorem delBody_getD_lt {p i : Nat} {g : Int} {b : List Int} (hi : i < p) :
    (delAt p (addAfter p g b)).getD i 0 = b.getD i 0 := by
  rw [delAt_getD_lt hi, addAfter_getD_le (by omega)]

theorem delBody_getD_ge {p i : Nat} {g : Int} {b : List Int} (hi : p ≤ i)
    (hl : i + 1 < b.length) :
    (delAt p (addAfter p g b)).getD i 0 = b.getD (i + 1) 0 + g := by
  rw [delAt_getD_ge hi, addAfter_getD_gt (by omega) (by omega)]

theorem wfpn_deleteLineP {d : ProjData} {n p : Nat} (hw : WFPn d (n + 1)) (hp : p ≤ n) :
    WFPn (deleteLineP d (p : Int)) n := by
  obtain ⟨hv, he, hh, hf, hb⟩ := hw.lens
  have hlen2 : Lens (deleteLineP d (p : Int)) n :=
    lens_deleteLineP ⟨hv, he, hh, hf, hb⟩ hp
  rw [deleteLineP_eq] at hlen2 ⊢
  refine ⟨hlen2, ?_, ?_, ?_, ?_⟩
  · rcases Nat.eq_zero_or_pos p with hp0 | hp0
    · subst hp0
      rw [delBody_getD_ge (Nat.le_refl 0) (by omega), hw.span 0 (by omega)]
      rw [hw.base]
      ring
    · rw [delBody_getD_lt hp0]
      exact hw.base
  · rw [delBody_getD_ge (by omega) (by omega), delBody_getD_ge (by omega) (by omega),
      hw.sent]
  · intro i hi
    have hspnew : spanB ⟨delAt p d.visible, delAt p d.expanded, delAt p d.heights,
        delAt p d.foldDisplayTexts, delAt p (addAfter p (-(spanB d p)) d.body)⟩ i =
        (if i < p then spanB d i else spanB d (i + 1)) := by
      rcases Nat.lt_or_ge i p with hip | hip
      · rw [if_pos hip]
        show (if (delAt p d.visible).getD i true = true
          then (delAt p d.heights).getD i 1 else 0) = spanB d i
        rw [delAt_getD_lt hip, delAt_getD_lt hip]
        rfl
      · rw [if_neg (by omega)]
        show (if (delAt p d.visible).getD i true = true
          then (delAt p d.heights).getD i 1 else 0) = spanB d (i + 1)
        rw [delAt_getD_ge hip, delAt_getD_ge hip]
        rfl
    rw [hspnew]
    rcases Nat.lt_trichotomy (i + 1) p with hip | hip | hip
    · rw [delBody_getD_lt hip, delBody_getD_lt (by omega), if_pos (by omega)]
      exact hw.span i (by omega)
    · rw [delBody_getD_ge (by omega) (by omega), delBody_getD_lt (by omega),
        if_pos (by omega)]
      rw [← hip, hw.span (i + 1) (by omega), hw.span i (by omega)]
      ring
    · rw [delBody_getD_ge (by omega) (by omega), delBody_getD_ge (by omega) (by omega),
        if_neg (by omega)]
      rw [hw.span (i + 1) (by omega)]
      ring
  · intro i hi
    show 1 ≤ (delAt p d.heights).getD i 1
    rcases Nat.lt_or_ge i p with hip | hip
    · rw [delAt_getD_lt hip]
      exact hw.hpos i (by omega)
    · rw [delAt_getD_ge hip]
      exact hw.hpos (i + 1) (by omega)

/-! ## Loop-level preservation -/

theorem lens_insLinesGoP {k : Nat} : ∀ {p n : Nat} {d : ProjData}, Lens d n → p ≤ n →
    Lens (insLinesGoP (p : Int) k d) (n + k) := by
  induction k with
  | zero => intro p n d hl _; exact hl
  | succ k ih =>
    intro p n d hl hp
    show Lens (insLinesGoP ((p : Int) + 1) k (insertLineP d (p : Int))) (n + (k + 1))
    have h1 : ((p : Int) + 1) = ((p + 1 : Nat) : Int) := by push_cast; ring
    rw [h1, show n + (k + 1) = (n + 1) + k by omega]
    exact ih (lens_insertLineP hl hp) (by omega)

theorem wfpn_insLinesGoP {k : Nat} : ∀ {p n : Nat} {d : ProjData}, WFPn d n → p ≤ n →
    WFPn (insLinesGoP (p : Int) k d) (n + k) := by
  induction k with
  | zero => intro p n d hw _; exact hw
  | succ k ih =>
    intro p n d hw hp
    show WFPn (insLinesGoP ((p : Int) + 1) k (insertLineP d (p : Int))) (n + (k + 1))
    have h1 : ((p : Int) + 1) = ((p + 1 : Nat) : Int) := by push_cast; ring
    rw [h1, show n + (k + 1) = (n + 1) + k by omega]
    exact ih (wfpn_insertLineP hw hp) (by omega)

theorem wfpn_delLinesGoP {k : Nat} : ∀ {p n : Nat} {d : ProjData}, WFPn d (n + k) →
    p ≤ n → WFPn (delLinesGoP (p : Int) k d) n := by
  induction k with
  | zero => intro p n d hw _; exact hw
  | succ k ih =>
    intro p n d hw hp
    show WFPn (delLinesGoP (p : Int) k (deleteLineP d (p : Int))) n
    have hd : WFPn (deleteLineP d (p : Int)) (n + k) :=
      wfpn_deleteLineP (by rw [show n + k + 1 = n + (k + 1) by omega]; exact hw) (by omega)
    exact ih hd hp

theorem wfpn_ensureDataP (s : CState) (h : CInv s) :
    WFPn (ensureDataP s) (linesInDoc s).toNat := by
  match s with
  | .oneToOne n =>
    show WFPn (insLinesGoP ((0 : Nat) : Int) n.toNat emptyProj) (linesInDoc (.oneToOne n)).toNat
    have := wfpn_insLinesGoP (k := n.toNat) wfpn_emptyProj (Nat.le_refl 0)
    simpa using this
  | .proj d =>
    have hw : WFPn d d.visible.length := h
    show WFPn d (linesInDocP d).toNat
    have hb : d.body.length = d.visible.length + 2 := hw.lens.2.2.2.2
    have : (linesInDocP d).toNat = d.visible.length := by
      unfold linesInDocP
      rw [hb]
      omega
    rw [this]
    exact hw

theorem setValI_length (i : Int) (v : α) (l : List α) :
    (setValI i v l).length = l.length := by
  unfold setValI
  split <;> simp

theorem wfpn_linesInDocP {d : ProjData} {n : Nat} (hw : WFPn d n) :
    linesInDocP d = (n : Int) := by
  have hb : d.body.length = n + 2 := hw.lens.2.2.2.2
  unfold linesInDocP
  rw [hb]
  push_cast
  ring

theorem wfpn_toggle {d : ProjData} {n m : Nat} {isVis : Bool} (hw : WFPn d n)
    (hm : m < n) (hne : d.visible.getD m true ≠ isVis) :
    WFPn ⟨d.visible.set m isVis, d.expanded, d.heights, d.foldDisplayTexts,
      addAfter m (if isVis then d.heights.getD m 1 else -(d.heights.getD m 1)) d.body⟩
      n := by
  obtain ⟨hv, he, hh, hf, hb⟩ := hw.lens
  set dl : Int := if isVis then d.heights.getD m 1 else -(d.heights.getD m 1) with hdl
  refine ⟨⟨by simpa using hv, he, hh, hf, by rw [addAfter_length]; omega⟩, ?_, ?_, ?_, ?_⟩
  · rw [addAfter_getD_le (Nat.zero_le m)]
    exact hw.base
  · rw [addAfter_getD_gt (by omega) (by omega), addAfter_getD_gt (by omega) (by omega),
      hw.sent]
  · intro i hi
    have hspnew : spanB ⟨d.visible.set m isVis, d.expanded, d.heights,
        d.foldDisplayTexts, addAfter m dl d.body⟩ i =
        (if i = m then (if isVis then d.heights.getD m 1 else 0) else spanB d i) := by
      rcases Nat.decEq i m with hne2 | heq
      · rw [if_neg hne2]
        show (if (d.visible.set m isVis).getD i true = true
          then d.heights.getD i 1 else 0) = spanB d i
        rw [set_getD_ne (by omega)]
        rfl
      · subst heq
        rw [if_pos rfl]
        show (if (d.visible.set i isVis).getD i true = true
          then d.heights.getD i 1 else 0) = _
        rw [set_getD_self (by omega)]
    rw [hspnew]
    rcases Nat.lt_trichotomy i m with him | him | him
    · rw [addAfter_getD_le (by omega), addAfter_getD_le (by omega), if_neg (by omega)]
      exact hw.span i hi
    · subst him
      rw [addAfter_getD_gt (by omega) (by omega), addAfter_getD_le (by omega),
        if_pos rfl, hw.span i hi]
      rw [hdl]
      cases hx : d.visible.getD i true
      · have hiv : isVis = true := by
          cases isVis
          · rw [hx] at hne
            exact absurd rfl hne
          · rfl
        subst hiv
        have hsp0 : spanB d i = 0 := by
          unfold spanB
          rw [hx]
          rfl
        rw [hsp0, if_pos rfl, if_pos rfl]
        ring
      · have hiv : isVis = false := by
          cases isVis
          · rfl
          · rw [hx] at hne
            exact absurd rfl hne
        subst hiv
        have hsp1 : spanB d i = d.heights.getD i 1 := by
          unfold spanB
          rw [hx]
          rfl
        rw [hsp1, if_neg (by simp), if_neg (by simp)]
        ring
    · rw [addAfter_getD_gt (by omega) (by omega), addAfter_getD_gt (by omega) (by omega),
        if_neg (by omega)]
      rw [hw.span i hi]
      ring
  · intro i hi
    exact hw.hpos i hi

theorem wfpn_svLoop {isVis : Bool} {n : Nat} : ∀ (c m : Nat) (d : ProjData) (delta : Int),
    WFPn d n → m + c ≤ n → WFPn (svLoop isVis (m : Int) c d delta).1 n := by
  intro c
  induction c with
  | zero => intro m d delta hw _; exact hw
  | succ c ih =>
    intro m d delta hw hm
    show WFPn (svLoop isVis (m : Int) (c + 1) d delta).1 n
    rw [svLoop]
    have hcast : (m : Int) + 1 = ((m + 1 : Nat) : Int) := by push_cast; ring
    split
    next hne =>
      have hne2 : d.visible.getD m true ≠ isVis := by
        rwa [getVisibleP, valueAtI_coe] at hne
      have hw2 := wfpn_toggle hw (by omega) hne2
      simp only [hcast, setValI_coe, insertTextP_coe, valueAtI_coe]
      exact ih (m + 1) _ _ hw2 (by omega)
    next hne =>
      rw [hcast]
      exact ih (m + 1) _ _ hw (by omega)

theorem wfpn_setHeightVis {d : ProjData} {n m : Nat} {h : Int} (hw : WFPn d n)
    (hm : m < n) (h1 : 1 ≤ h) (hvis : d.visible.getD m true = true) :
    WFPn ⟨d.visible, d.expanded, d.heights.set m h, d.foldDisplayTexts,
      addAfter m (h - d.heights.getD m 1) d.body⟩ n := by
  obtain ⟨hv, he, hh, hf, hb⟩ := hw.lens
  refine ⟨⟨hv, he, by simpa using hh, hf, by rw [addAfter_length]; omega⟩, ?_, ?_, ?_, ?_⟩
  · rw [addAfter_getD_le (Nat.zero_le m)]
    exact hw.base
  · rw [addAfter_getD_gt (by omega) (by omega), addAfter_getD_gt (by omega) (by omega),
      hw.sent]
  · intro i hi
    have hspnew : spanB ⟨d.visible, d.expanded, d.heights.set m h,
        d.foldDisplayTexts, addAfter m (h - d.heights.getD m 1) d.body⟩ i =
        (if i = m then h else spanB d i) := by
      rcases Nat.decEq i m with hne2 | heq
      · rw [if_neg hne2]
        show (if d.visible.getD i true = true
          then (d.heights.set m h).getD i 1 else 0) = spanB d i
        rw [set_getD_ne (by omega)]
        rfl
      · subst heq
        rw [if_pos rfl]
        show (if d.visible.getD i true = true
          then (d.heights.set i h).getD i 1 else 0) = h
        rw [set_getD_self (by omega), if_pos hvis]
    rw [hspnew]
    rcases Nat.lt_trichotomy i m with him | him | him
    · rw [addAfter_getD_le (by omega), addAfter_getD_le (by omega), if_neg (by omega)]
      exact hw.span i hi
    · subst him
      rw [addAfter_getD_gt (by omega) (by omega), addAfter_getD_le (by omega),
        if_pos rfl, hw.span i hi]
      have hsp1 : spanB d i = d.heights.getD i 1 := by
        unfold spanB
        rw [hvis]
        rfl
      rw [hsp1]
      ring
    · rw [addAfter_getD_gt (by omega) (by omega), addAfter_getD_gt (by omega) (by omega),
        if_neg (by omega), hw.span i hi]
      ring
  · intro i hi
    show 1 ≤ (d.heights.set m h).getD i 1
    rcases Nat.decEq i m with hne2 | heq
    · rw [set_getD_ne (by omega)]
      exact hw.hpos i hi
    · subst heq
      rw [set_getD_self (by omega)]
      exact h1

theorem wfpn_setHeightInvis {d : ProjData} {n m : Nat} {h : Int} (hw : WFPn d n)
    (hm : m < n) (h1 : 1 ≤ h) (hvis : d.visible.getD m true = false) :
    WFPn ⟨d.visible, d.expanded, d.heights.set m h, d.foldDisplayTexts, d.body⟩ n := by
  obtain ⟨hv, he, hh, hf, hb⟩ := hw.lens
  refine ⟨⟨hv, he, by simpa using hh, hf, hb⟩, hw.base, hw.sent, ?_, ?_⟩
  · intro i hi
    have hspnew : spanB ⟨d.visible, d.expanded, d.heights.set m h,
        d.foldDisplayTexts, d.body⟩ i = spanB d i := by
      rcases Nat.decEq i m with hne2 | heq
      · show (if d.visible.getD i true = true
          then (d.heights.set m h).getD i 1 else 0) = spanB d i
        rw [set_getD_ne (by omega)]
        rfl
      · subst heq
        show (if d.visible.getD i true = true
          then (d.heights.set i h).getD i 1 else 0) = spanB d i
        unfold spanB
        rw [hvis]
        simp
    rw [hspnew]
    exact hw.span i hi
  · intro i hi
    show 1 ≤ (d.heights.set m h).getD i 1
    rcases Nat.decEq i m with hne2 | heq
    · rw [set_getD_ne (by omega)]
      exact hw.hpos i hi
    · subst heq
      rw [set_getD_self (by omega)]
      exact h1

theorem wfpn_replaceEF {d : ProjData} {n : Nat} {x : List Bool}
    {y : List (Option String)} (hw : WFPn d n) (hx : x.length = d.expanded.length)
    (hy : y.length = d.foldDisplayTexts.length) :
    WFPn ⟨d.visible, x, d.heights, y, d.body⟩ n := by
  obtain ⟨hv, he, hh, hf, hb⟩ := hw.lens
  exact ⟨⟨hv, show x.length = n by omega, hh, show y.length = n by omega, hb⟩,
    hw.base, hw.sent, hw.span, hw.hpos⟩

/-! ## Invariant preservation by the public operations -/

theorem cinv_linesInDoc_nonneg {s : CState} (h : CInv s) : 0 ≤ linesInDoc s := by
  match s with
  | .oneToOne n => exact h
  | .proj d =>
    rw [show linesInDoc (.proj d) = linesInDocP d from rfl, wfpn_linesInDocP h]
    positivity

theorem cinv_insertLines {s : CState} {p k : Int} (h : CInv s) (hp : 0 ≤ p)
    (hpn : p ≤ linesInDoc s) : CInv (insertLines s p k) := by
  match s with
  | .oneToOne n =>
    show (0 : Int) ≤ n + (k.toNat : Int)
    have h0 : (0 : Int) ≤ n := h
    omega
  | .proj d =>
    have hw : WFPn d d.visible.length := h
    have hlen := wfpn_linesInDocP hw
    have hpn2 : p.toNat ≤ d.visible.length := by
      rw [show linesInDoc (.proj d) = linesInDocP d from rfl, hlen] at hpn
      omega
    show CInv (.proj (insLinesGoP p k.toNat d))
    rw [show p = ((p.toNat : Nat) : Int) by omega]
    exact cinv_proj_of_wfpn (wfpn_insLinesGoP hw hpn2)

theorem cinv_deleteLines {s : CState} {p k : Int} (h : CInv s) (hp : 0 ≤ p)
    (hk : 0 ≤ k) (hpn : p + k ≤ linesInDoc s) : CInv (deleteLines s p k) := by
  match s with
  | .oneToOne n =>
    show (0 : Int) ≤ n - (k.toNat : Int)
    have h2 : p + k ≤ n := hpn
    omega
  | .proj d =>
    have hw : WFPn d d.visible.length := h
    have hlen := wfpn_linesInDocP hw
    have h2 : p + k ≤ linesInDocP d := hpn
    rw [hlen] at h2
    have hkn : k.toNat ≤ d.visible.length := by omega
    have hmk : d.visible.length = (d.visible.length - k.toNat) + k.toNat := by omega
    rw [hmk] at hw
    have hpm : p.toNat ≤ d.visible.length - k.toNat := by omega
    show CInv (.proj (delLinesGoP p k.toNat d))
    rw [show p = ((p.toNat : Nat) : Int) by omega]
    exact cinv_proj_of_wfpn (wfpn_delLinesGoP hw hpm)

theorem cinv_setVisible {s : CState} {a b : Int} {isVis : Bool} (h : CInv s) :
    CInv (setVisible s a b isVis).1 := by
  unfold setVisible
  split
  · exact h
  · have hwe := wfpn_ensureDataP s h
    have hlen := wfpn_linesInDocP hwe
    simp only
    split
    next hcond =>
      obtain ⟨hab, ha, hbn⟩ := hcond
      rw [hlen] at hbn
      obtain ⟨m, rfl⟩ : ∃ m : Nat, a = (m : Int) := ⟨a.toNat, by omega⟩
      exact cinv_proj_of_wfpn
        (wfpn_svLoop ((b - (m : Int) + 1).toNat) m (ensureDataP s) 0 hwe (by omega))
    · exact cinv_proj_of_wfpn hwe

theorem cinv_setExpanded {s : CState} {l : Int} {e : Bool} (h : CInv s) :
    CInv (setExpanded s l e).1 := by
  unfold setExpanded
  split
  · exact h
  · have hwe := wfpn_ensureDataP s h
    simp only
    split
    · exact cinv_proj_of_wfpn (wfpn_replaceEF hwe (setValI_length l e _) rfl)
    · exact cinv_proj_of_wfpn hwe

theorem cinv_setFoldDisplayText {s : CState} {l : Int} {t : Option String} (h : CInv s) :
    CInv (setFoldDisplayText s l t).1 := by
  unfold setFoldDisplayText
  have hwe := wfpn_ensureDataP s h
  simp only
  split
  · exact cinv_proj_of_wfpn (wfpn_replaceEF hwe rfl (setValI_length l t _))
  · exact cinv_proj_of_wfpn hwe

theorem cinv_setHeight {s : CState} {l hgt : Int} (h : CInv s) (hl : 0 ≤ l)
    (h1 : 1 ≤ hgt) : CInv (setHeight s l hgt).1 := by
  unfold setHeight
  split
  · exact h
  · split
    next hlt =>
      have hwe := wfpn_ensureDataP s h
      have hlen := wfpn_linesInDocP hwe
      have hnn := cinv_linesInDoc_nonneg h
      have hlin : linesInDocP (ensureDataP s) = linesInDoc s := by
        rw [hlen]
        omega
      have hm : l.toNat < (linesInDoc s).toNat := by omega
      simp only
      split
      next hne =>
        rw [show l = ((l.toNat : Nat) : Int) by omega] at hne ⊢
        rw [valueAtI_coe] at hne
        simp only [setValI_coe, insertTextP_coe, valueAtI_coe, getVisibleP]
        cases hx : (ensureDataP s).visible.getD l.toNat true
        · rw [if_neg (by simp [hx])]
          exact cinv_proj_of_wfpn (wfpn_setHeightInvis hwe hm h1 hx)
        · rw [if_pos (by simp [hx])]
          exact cinv_proj_of_wfpn (wfpn_setHeightVis hwe hm h1 hx)
      · exact cinv_proj_of_wfpn hwe
    · exact h

theorem cinv_showAll {s : CState} (h : CInv s) : CInv (showAll s) :=
  cinv_linesInDoc_nonneg h

/-- States reachable from the initial state by the public operations, used
with their documented argument conventions: structural edits at valid
positions, heights positive (the layout engine supplies display-row counts of
at least one), nonnegative line indices where the source performs no lower
range check of its own; SetVisible, SetExpanded and SetFoldDisplayText accept
arbitrary arguments. -/
inductive Reachable : CState → Prop
  | base : Reachable initial
  | insertLines (s : CState) (p k : Int) : Reachable s → 0 ≤ p → p ≤ linesInDoc s →
      Reachable (insertLines s p k)
  | deleteLines (s : CState) (p k : Int) : Reachable s → 0 ≤ p → 0 ≤ k →
      p + k ≤ linesInDoc s → Reachable (deleteLines s p k)
  | setVisible (s : CState) (a b : Int) (v : Bool) : Reachable s →
      Reachable (setVisible s a b v).1
  | setExpanded (s : CState) (l : Int) (e : Bool) : Reachable s →
      Reachable (setExpanded s l e).1
  | setFoldDisplayText (s : CState) (l : Int) (t : Option String) : Reachable s →
      Reachable (setFoldDisplayText s l t).1
  | setHeight (s : CState) (l h : Int) : Reachable s → 0 ≤ l → 1 ≤ h →
      Reachable (setHeight s l h).1
  | showAll (s : CState) : Reachable s → Reachable (showAll s)

theorem reachable_cinv {s : CState} (h : Reachable s) : CInv s := by
  induction h with
  | base => exact (by omega : (0 : Int) ≤ 1)
  | insertLines s p k _ hp hpn ih => exact cinv_insertLines ih hp hpn
  | deleteLines s p k _ hp hk hpn ih => exact cinv_deleteLines ih hp hk hpn
  | setVisible s a b v _ ih => exact cinv_setVisible ih
  | setExpanded s l e _ ih => exact cinv_setExpanded ih
  | setFoldDisplayText s l t _ ih => exact cinv_setFoldDisplayText ih
  | setHeight s l hgt _ hl h1 ih => exact cinv_setHeight ih hl h1
  | showAll s _ ih => exact cinv_showAll ih

/-! ## The materialized trivial state: all attributes default -/

/-- Pointwise description of a projected state equivalent to the trivial
state with n lines: all defaults, and boundary i at min i n. -/
def IsDefault (d : ProjData) (n : Nat) : Prop :=
  Lens d n ∧
  (∀ i, d.visible.getD i true = true) ∧
  (∀ i, d.expanded.getD i true = true) ∧
  (∀ i, d.heights.getD i 1 = 1) ∧
  (∀ i, d.foldDisplayTexts.getD i none = none) ∧
  (∀ i, i ≤ n + 1 → d.body.getD i 0 = ((min i n : Nat) : Int))

theorem isDefault_emptyProj : IsDefault emptyProj 0 := by
  refine ⟨⟨rfl, rfl, rfl, rfl, rfl⟩, ?_, ?_, ?_, ?_, ?_⟩
  · intro i
    cases i <;> rfl
  · intro i
    cases i <;> rfl
  · intro i
    cases i <;> rfl
  · intro i
    cases i <;> rfl
  · intro i hi
    interval_cases i <;> rfl

theorem insSet_getD_all {p : Nat} {dv : α} {l : List α} (h : p ≤ l.length)
    (hall : ∀ i, l.getD i dv = dv) (i : Nat) :
    ((insAt p dv l).set p dv).getD i dv = dv := by
  rcases Nat.lt_trichotomy i p with hip | hip | hip
  · rw [insSet_getD_lt hip]
    exact hall i
  · subst hip
    exact insSet_getD_self h
  · obtain ⟨j, rfl⟩ : ∃ j, i = j + 1 := ⟨i - 1, by omega⟩
    rw [insSet_getD_succ h (by omega)]
    exact hall j

theorem isDefault_insertLineP {d : ProjData} {m : Nat} (hd : IsDefault d m) :
    IsDefault (insertLineP d (m : Int)) (m + 1) := by
  obtain ⟨hl, hvis, hexp, hhgt, hfld, hbody⟩ := hd
  obtain ⟨hv, he, hh, hf, hb⟩ := hl
  have hlen2 : Lens (insertLineP d (m : Int)) (m + 1) :=
    lens_insertLineP ⟨hv, he, hh, hf, hb⟩ (by omega)
  have hdfd : displayFromDocP d.body (m : Int) = d.body.getD m 0 :=
    displayFromDocP_getD hb (by omega)
  rw [insertLineP_eq, hdfd] at hlen2 ⊢
  have hbm : d.body.getD m 0 = ((m : Nat) : Int) := by
    rw [hbody m (by omega)]
    simp
  refine ⟨hlen2, ?_, ?_, ?_, ?_, ?_⟩
  · exact insSet_getD_all (by omega) hvis
  · exact insSet_getD_all (by omega) hexp
  · exact insSet_getD_all (by omega) hhgt
  · exact insSet_getD_all (by omega) hfld
  · intro i hi
    rcases Nat.lt_or_ge i (m + 1) with him | him
    · rw [insBody_getD_le hb (by omega) (by omega), hbody i (by omega)]
      congr 1
      omega
    · obtain ⟨j, rfl⟩ : ∃ j, i = j + 1 := ⟨i - 1, by omega⟩
      rw [insBody_getD_succ hb (by omega) (by omega) (by omega), hbody j (by omega)]
      have h1 : min j m = m := by omega
      have h2 : min (j + 1) (m + 1) = m + 1 := by omega
      rw [h1, h2]
      push_cast
      ring

theorem isDefault_insLinesGoP {k : Nat} : ∀ {m : Nat} {d : ProjData}, IsDefault d m →
    IsDefault (insLinesGoP (m : Int) k d) (m + k) := by
  induction k with
  | zero => intro m d hd; exact hd
  | succ k ih =>
    intro m d hd
    show IsDefault (insLinesGoP ((m : Int) + 1) k (insertLineP d (m : Int))) (m + (k + 1))
    have h1 : ((m : Int) + 1) = ((m + 1 : Nat) : Int) := by push_cast; ring
    rw [h1, show m + (k + 1) = (m + 1) + k by omega]
    exact ih (isDefault_insertLineP hd)

theorem isDefault_ensure {n : Int} (hn : 0 ≤ n) :
    IsDefault (ensureDataP (.oneToOne n)) n.toNat := by
  show IsDefault (insLinesGoP 0 n.toNat emptyProj) n.toNat
  have h0 : (0 : Int) = ((0 : Nat) : Int) := rfl
  rw [h0]
  have := isDefault_insLinesGoP (k := n.toNat) (m := 0) isDefault_emptyProj
  simpa using this

/-! ## Characterization of the partition search -/

theorem pfp_fold_spec (b : List Int) (pos : Int) (m : Nat) :
    ((List.range m).foldl (fun a i => if b.getD i 0 ≤ pos then i else a) 0 = 0 ∨
      ((List.range m).foldl (fun a i => if b.getD i 0 ≤ pos then i else a) 0 < m ∧
        b.getD ((List.range m).foldl (fun a i => if b.getD i 0 ≤ pos then i else a) 0) 0
          ≤ pos)) ∧
    (∀ j, j < m → b.getD j 0 ≤ pos →
      j ≤ (List.range m).foldl (fun a i => if b.getD i 0 ≤ pos then i else a) 0) := by
  induction m with
  | zero => exact ⟨Or.inl rfl, fun j hj _ => absurd hj (Nat.not_lt_zero j)⟩
  | succ m ih =>
    obtain ⟨ih1, ih2⟩ := ih
    rw [List.range_succ, List.foldl_append]
    by_cases hPm : b.getD m 0 ≤ pos
    · rw [show (List.foldl (fun a i => if b.getD i 0 ≤ pos then i else a)
        (List.foldl (fun a i => if b.getD i 0 ≤ pos then i else a) 0 (List.range m)) [m])
        = (if b.getD m 0 ≤ pos then m
           else List.foldl (fun a i => if b.getD i 0 ≤ pos then i else a) 0 (List.range m))
        from rfl, if_pos hPm]
      exact ⟨Or.inr ⟨by omega, hPm⟩, fun j hj _ => by omega⟩
    · rw [show (List.foldl (fun a i => if b.getD i 0 ≤ pos then i else a)
        (List.foldl (fun a i => if b.getD i 0 ≤ pos then i else a) 0 (List.range m)) [m])
        = (if b.getD m 0 ≤ pos then m
           else List.foldl (fun a i => if b.getD i 0 ≤ pos then i else a) 0 (List.range m))
        from rfl, if_neg hPm]
      refine ⟨?_, ?_⟩
      · rcases ih1 with h | h
        · exact Or.inl h
        · exact Or.inr ⟨by omega, h.2⟩
      · intro j hj hPj
        rcases Nat.lt_or_ge j m with hjm | hjm
        · exact ih2 j hjm hPj
        · have : j = m := by omega
          subst this
          exact absurd hPj hPm

theorem spanB_nonneg {d : ProjData} {n : Nat} (hw : WFPn d n) {i : Nat} (hi : i < n) :
    0 ≤ spanB d i := by
  unfold spanB
  split
  · have := hw.hpos i hi
    omega
  · exact le_refl 0

theorem wfpn_body_step {d : ProjData} {n : Nat} (hw : WFPn d n) {i : Nat} (hi : i ≤ n) :
    d.body.getD i 0 ≤ d.body.getD (i + 1) 0 := by
  rcases Nat.lt_or_ge i n with hin | hin
  · rw [hw.span i hin]
    have := spanB_nonneg hw hin
    omega
  · have : i = n := by omega
    subst this
    rw [hw.sent]

theorem wfpn_body_mono {d : ProjData} {n : Nat} (hw : WFPn d n) :
    ∀ j, j ≤ n + 1 → ∀ i, i ≤ j → d.body.getD i 0 ≤ d.body.getD j 0 := by
  intro j
  induction j with
  | zero =>
    intro _ i hi
    have : i = 0 := by omega
    subst this
    exact le_refl _
  | succ j ih =>
    intro hj i hi
    rcases Nat.lt_or_ge i (j + 1) with hij | hij
    · exact le_trans (ih (by omega) i (by omega)) (wfpn_body_step hw (by omega))
    · have : i = j + 1 := by omega
      subst this
      exact le_refl _

theorem wfpn_linesDisplayedP {d : ProjData} {n : Nat} (hw : WFPn d n) :
    linesDisplayedP d = d.body.getD n 0 := by
  unfold linesDisplayedP
  rw [wfpn_linesInDocP hw, positionFromPartition_coe]

theorem pfp_range_len {d : ProjData} {n : Nat} (hw : WFPn d n) :
    d.body.length - 1 = n + 1 := by
  have hb : d.body.length = n + 2 := hw.lens.2.2.2.2
  omega

theorem pfp_owner {d : ProjData} {n : Nat} (hw : WFPn d n) {v : Int} (h0 : 0 < v)
    (hv : v < d.body.getD n 0) :
    ∃ r : Nat, partitionFromPosition d.body v = (r : Int) ∧ r < n ∧
      d.body.getD r 0 ≤ v ∧ v < d.body.getD (r + 1) 0 ∧
      d.visible.getD r true = true := by
  have hspec := pfp_fold_spec d.body v (n + 1)
  obtain ⟨r, hr⟩ : ∃ r, (List.range (n + 1)).foldl
      (fun a i => if d.body.getD i 0 ≤ v then i else a) 0 = r := ⟨_, rfl⟩
  rw [hr] at hspec
  obtain ⟨h1, h2⟩ := hspec
  have hn1 : n ≠ 0 := by
    intro h
    subst h
    rw [hw.base] at hv
    omega
  have hPr : d.body.getD r 0 ≤ v := by
    rcases h1 with h | ⟨_, h⟩
    · rw [h, hw.base]
      omega
    · exact h
  have hrn : r < n := by
    have hrn2 : r ≤ n := by
      rcases h1 with h | ⟨h, _⟩ <;> omega
    rcases Nat.lt_or_ge r n with h | h
    · exact h
    · exfalso
      have hrn3 : r = n := by omega
      rw [hrn3] at hPr
      omega
  have hmax : v < d.body.getD (r + 1) 0 := by
    by_contra hc
    push_neg at hc
    have := h2 (r + 1) (by omega) hc
    omega
  refine ⟨r, ?_, hrn, hPr, hmax, ?_⟩
  · unfold partitionFromPosition
    rw [pfp_range_len hw, hr]
    rfl
  · by_contra hc
    have hsp : spanB d r = 0 := by
      unfold spanB
      rw [if_neg hc]
    have := hw.span r hrn
    rw [hsp] at this
    omega

theorem pfp_at_end {d : ProjData} {n : Nat} (hw : WFPn d n) {v : Int}
    (hv : d.body.getD n 0 ≤ v) :
    partitionFromPosition d.body v = (n : Int) := by
  have hspec := pfp_fold_spec d.body v (n + 1)
  obtain ⟨r, hr⟩ : ∃ r, (List.range (n + 1)).foldl
      (fun a i => if d.body.getD i 0 ≤ v then i else a) 0 = r := ⟨_, rfl⟩
  rw [hr] at hspec
  obtain ⟨h1, h2⟩ := hspec
  have hnr : n ≤ r := h2 n (by omega) hv
  have hrn : r ≤ n := by
    rcases h1 with h | ⟨h, _⟩ <;> omega
  have hrn2 : r = n := by omega
  unfold partitionFromPosition
  rw [pfp_range_len hw, hr, hrn2]
  rfl

theorem wfpn_body_telescope {d : ProjData} {n : Nat} (hw : WFPn d n) :
    ∀ m, m ≤ n → d.body.getD m 0 = ((List.range m).map (fun i => spanB d i)).sum := by
  intro m
  induction m with
  | zero =>
    intro _
    rw [hw.base]
    rfl
  | succ m ih =>
    intro hm
    rw [List.range_succ, List.map_append, List.sum_append, ← ih (by omega),
      hw.span m (by omega)]
    simp

/-! ## Observables of a default projected state agree with trivial mode -/

theorem isDefault_wfpn {d : ProjData} {n : Nat} (hd : IsDefault d n) : WFPn d n := by
  obtain ⟨hl, hvis, hexp, hhgt, hfld, hbody⟩ := hd
  refine ⟨hl, ?_, ?_, ?_, ?_⟩
  · rw [hbody 0 (by omega)]
    simp
  · rw [hbody (n + 1) (by omega), hbody n (by omega)]
    simp
  · intro i hi
    rw [hbody (i + 1) (by omega), hbody i (by omega)]
    unfold spanB
    rw [hvis i, hhgt i, if_pos rfl]
    have h1 : min (i + 1) n = i + 1 := by omega
    have h2 : min i n = i := by omega
    rw [h1, h2]
    push_cast
    ring
  · intro i _
    rw [hhgt i]

theorem isDefault_getVisibleP {d : ProjData} {n : Nat} (hd : IsDefault d n) (l : Int) :
    getVisibleP d l = true := by
  unfold getVisibleP valueAtI
  split
  · rw [headD_eq_getD_zero]
    exact hd.2.1 0
  · exact hd.2.1 l.toNat

theorem isDefault_expanded {d : ProjData} {n : Nat} (hd : IsDefault d n) (l : Int) :
    valueAtI true d.expanded l = true := by
  unfold valueAtI
  split
  · rw [headD_eq_getD_zero]
    exact hd.2.2.1 0
  · exact hd.2.2.1 l.toNat

theorem isDefault_heights {d : ProjData} {n : Nat} (hd : IsDefault d n) (l : Int) :
    valueAtI 1 d.heights l = 1 := by
  unfold valueAtI
  split
  · rw [headD_eq_getD_zero]
    exact hd.2.2.2.1 0
  · exact hd.2.2.2.1 l.toNat

theorem isDefault_folds {d : ProjData} {n : Nat} (hd : IsDefault d n) (l : Int) :
    foldAtI d.foldDisplayTexts l = none := by
  unfold foldAtI
  split
  · rfl
  · exact hd.2.2.2.2.1 l.toNat

theorem isDefault_linesInDocP {d : ProjData} {n : Nat} (hd : IsDefault d n) :
    linesInDocP d = (n : Int) :=
  wfpn_linesInDocP (isDefault_wfpn hd)

theorem isDefault_linesDisplayedP {d : ProjData} {n : Nat} (hd : IsDefault d n) :
    linesDisplayedP d = (n : Int) := by
  rw [wfpn_linesDisplayedP (isDefault_wfpn hd), hd.2.2.2.2.2 n (by omega)]
  simp

theorem isDefault_displayFromDocP {d : ProjData} {n : Nat} (hd : IsDefault d n)
    {l : Int} (hl : 0 ≤ l) :
    displayFromDocP d.body l = (if l ≤ (n : Int) then l else (n : Int)) := by
  have hb : d.body.length = n + 2 := hd.1.2.2.2.2
  unfold displayFromDocP
  rw [hb]
  have hbody := hd.2.2.2.2.2
  rcases le_or_lt l ((n : Int) + 1) with hle | hgt
  · rw [if_neg (by push_cast; omega)]
    unfold positionFromPartition
    rw [if_neg (by omega), hbody l.toNat (by omega)]
    rcases le_or_lt l (n : Int) with h2 | h2
    · rw [if_pos h2]
      have : min l.toNat n = l.toNat := by omega
      rw [this]
      omega
    · rw [if_neg (by omega)]
      have : min l.toNat n = n := by omega
      rw [this]
  · rw [if_pos (by push_cast; omega)]
    unfold positionFromPartition
    rw [if_neg (by push_cast; omega)]
    have ht : ((n : Int) + 2 - 1).toNat = n + 1 := by omega
    rw [show ((n + 2 : Nat) : Int) - 1 = (n : Int) + 2 - 1 by push_cast; ring, ht,
      hbody (n + 1) (by omega), if_neg (by omega)]
    have : min (n + 1) n = n := by omega
    rw [this]

/-! ## Total display rows equal the sum of visible heights -/

/-- The sum, over all document lines, of the display rows each contributes
through the public interface: its height when visible, zero when hidden. -/
def visHeightSum (s : CState) : Int :=
  ((List.range (linesInDoc s).toNat).map
    (fun i : Nat => if getVisible s (i : Int) then getHeight s (i : Int) else 0)).sum

theorem visHeightSum_oneToOne {n : Int} (hn : 0 ≤ n) :
    visHeightSum (.oneToOne n) = n := by
  unfold visHeightSum
  have h1 : (fun i : Nat => if getVisible (.oneToOne n) (i : Int) = true
      then getHeight (.oneToOne n) (i : Int) else 0) = fun _ : Nat => (1 : Int) := by
    funext i
    rfl
  rw [show linesInDoc (.oneToOne n) = n from rfl, h1, List.map_const']
  simp
  omega

theorem visHeightSum_proj {d : ProjData} {n : Nat} (hw : WFPn d n) :
    visHeightSum (.proj d) = ((List.range n).map (fun i => spanB d i)).sum := by
  unfold visHeightSum
  have hln : (linesInDoc (.proj d)).toNat = n := by
    rw [show linesInDoc (.proj d) = linesInDocP d from rfl, wfpn_linesInDocP hw]
    omega
  have hmap : ∀ i ∈ List.range n,
      (if getVisible (.proj d) (i : Int) = true then getHeight (.proj d) (i : Int) else 0)
        = spanB d i := by
    intro i hi
    show (if getVisibleP d (i : Int) = true then valueAtI 1 d.heights (i : Int) else 0) = _
    unfold getVisibleP
    rw [valueAtI_coe, valueAtI_coe]
    rfl
  rw [hln, List.map_congr_left hmap]

theorem wfpn_total_eq_sum {d : ProjData} {n : Nat} (hw : WFPn d n) :
    linesDisplayedP d = visHeightSum (.proj d) := by
  rw [wfpn_linesDisplayedP hw, visHeightSum_proj hw,
    wfpn_body_telescope hw n (by omega)]

/-! ## Shared concrete states for witnesses and counterexamples -/

/-- Two document lines, still trivial: InsertLines(0, 1) on the fresh state. -/
def sTwoLines : CState := insertLines initial 0 1

/-- Projected state with heights 2 and 1: SetHeight(0, 2) on two lines. -/
def sHeight2 : CState := (setHeight sTwoLines 0 2).1

/-- The state after the further call SetHeight(-1, 5): the range test of
SetHeight only checks the upper bound, so the negative line is processed and
the partition-index shift runs at index -1, moving every boundary. -/
def sCorrupt : CState := (setHeight sHeight2 (-1) 5).1

/-- One line made two rows tall: SetHeight(0, 2) on the fresh state. -/
def sTall : CState := (setHeight initial 0 2).1

/-- Five lines with lines 1 and 2 hidden (the spec scenario). -/
def sFold : CState := (setVisible (insertLines initial 0 4) 1 2 false).1

theorem reachable_sFold : Reachable sFold :=
  Reachable.setVisible _ 1 2 false
    (Reachable.insertLines initial 0 4 Reachable.base (by decide) (by decide))

theorem reachable_sTall : Reachable sTall :=
  Reachable.setHeight initial 0 2 Reachable.base (by decide) (by decide)

/-! ## Claim C1 -/

/-- Claim C1, counterexample: the chain InsertLines(0,1); SetHeight(0,2);
SetHeight(-1,5) consists of public operations, yet in the final state the
total display-row count (6) differs from the sum of the heights of the
visible lines (2 + 1 = 3): SetHeight tests only lineDoc < LinesInDoc(), so
the negative index slips through and the partition shift at index -1 moves
every boundary, including the always-zero first one. -/
theorem C1_counterexample :
    linesDisplayed sCorrupt = 6 ∧ visHeightSum sCorrupt = 3 ∧
    ¬(linesDisplayed sCorrupt = visHeightSum sCorrupt) := by
  refine ⟨by decide, by decide, by decide⟩

/-- Claim C1 (amended): in every state reachable by the public operations
used with their documented argument conventions (valid structural-edit
positions, nonnegative line index and positive height for SetHeight), the
total display-row count equals the sum over visible document lines of their
heights, invisible lines contributing zero, and for every document line the
display span equals its height if visible and zero otherwise. -/
theorem C1_conservation (s : CState) (hs : Reachable s) :
    linesDisplayed s = visHeightSum s ∧
    ∀ l : Int, 0 ≤ l → l < linesInDoc s →
      displayFromDoc s (l + 1) - displayFromDoc s l =
        (if getVisible s l then getHeight s l else 0) := by
  have hc := reachable_cinv hs
  match s with
  | .oneToOne n =>
    have hn : (0 : Int) ≤ n := hc
    refine ⟨(visHeightSum_oneToOne hn).symm, ?_⟩
    intro l hl hln
    have hln2 : l < n := hln
    show (if l + 1 ≤ n then l + 1 else n) - (if l ≤ n then l else n) = _
    rw [if_pos (by omega), if_pos (by omega)]
    show l + 1 - l = (1 : Int)
    ring
  | .proj d =>
    have hw : WFPn d d.visible.length := hc
    have hb : d.body.length = d.visible.length + 2 := hw.lens.2.2.2.2
    refine ⟨wfpn_total_eq_sum hw, ?_⟩
    intro l hl hln
    obtain ⟨m, rfl⟩ : ∃ m : Nat, l = (m : Int) := ⟨l.toNat, by omega⟩
    have hln2 : m < d.visible.length := by
      rw [show linesInDoc (.proj d) = linesInDocP d from rfl, wfpn_linesInDocP hw] at hln
      omega
    show displayFromDocP d.body ((m : Int) + 1) - displayFromDocP d.body (m : Int) = _
    rw [show (m : Int) + 1 = ((m + 1 : Nat) : Int) by push_cast; ring,
      displayFromDocP_getD hb (by omega), displayFromDocP_getD hb (by omega),
      hw.span m hln2]
    rw [show getVisible (.proj d) (m : Int) = d.visible.getD m true
      from valueAtI_coe true d.visible m,
      show getHeight (.proj d) (m : Int) = d.heights.getD m 1
      from valueAtI_coe 1 d.heights m]
    unfold spanB
    ring

/-- Claim C1, witness: the amended theorem applied to the spec scenario state
(five lines, lines 1 and 2 hidden). -/
theorem C1_conservation_witness :
    linesDisplayed sFold = visHeightSum sFold ∧
    displayFromDoc sFold 1 - displayFromDoc sFold 0 =
      (if getVisible sFold 0 then getHeight sFold 0 else 0) :=
  ⟨(C1_conservation sFold reachable_sFold).1,
   (C1_conservation sFold reachable_sFold).2 0 (by decide) (by decide)⟩

/-! ## Claim C2 -/

/-- Claim C2, counterexample: in trivial mode DocFromDisplay returns the
argument unchanged, so DocFromDisplay(-1) on the fresh state is -1, not the
claimed 0; and in a projected one-line state of height 2, DocFromDisplay(5)
returns 1 = LinesInDoc(), while the document line owning the last display
row (row 1, spanned by line 0 whose rows are [0, 2)) is line 0. -/
theorem C2_counterexample :
    docFromDisplay initial (-1) = -1 ∧
    docFromDisplay sTall 5 = 1 ∧ linesInDoc sTall = 1 ∧ linesDisplayed sTall = 2 ∧
    displayFromDoc sTall 0 = 0 ∧ displayFromDoc sTall 1 = 2 := by
  refine ⟨by decide, by decide, by decide, by decide, by decide, by decide⟩

/-- Claim C2 (amended): in trivial mode DocFromDisplay returns displayLine
unchanged (no clamping).  In projected mode, in every reachable state:
displayLine at most 0 returns document line 0; displayLine at or beyond
LinesDisplayed() returns LinesInDoc() (one past the last document line);
and an in-range displayLine returns the document line whose display span
contains it, which is visible. -/
theorem C2_docFromDisplay (s : CState) (hs : Reachable s) (v : Int) :
    (isOneToOne s = true → docFromDisplay s v = v) ∧
    (isOneToOne s = false →
      (v ≤ 0 → docFromDisplay s v = 0) ∧
      (0 < v → linesDisplayed s ≤ v → docFromDisplay s v = linesInDoc s) ∧
      (0 < v → v < linesDisplayed s →
        0 ≤ docFromDisplay s v ∧ docFromDisplay s v < linesInDoc s ∧
        displayFromDoc s (docFromDisplay s v) ≤ v ∧
        v < displayFromDoc s (docFromDisplay s v + 1) ∧
        getVisible s (docFromDisplay s v) = true)) := by
  match s with
  | .oneToOne n =>
    refine ⟨fun _ => rfl, fun h => Bool.noConfusion h⟩
  | .proj d =>
    refine ⟨fun h => Bool.noConfusion h, fun _ => ?_⟩
    have hw : WFPn d d.visible.length := reachable_cinv hs
    have hb : d.body.length = d.visible.length + 2 := hw.lens.2.2.2.2
    have hld : linesDisplayed (.proj d) = d.body.getD d.visible.length 0 :=
      wfpn_linesDisplayedP hw
    refine ⟨?_, ?_, ?_⟩
    · intro hv
      show (if v ≤ 0 then 0
        else if v > linesDisplayedP d then partitionFromPosition d.body (linesDisplayedP d)
        else partitionFromPosition d.body v) = 0
      rw [if_pos hv]
    · intro h0 hge
      rw [hld] at hge
      show (if v ≤ 0 then 0
        else if v > linesDisplayedP d then partitionFromPosition d.body (linesDisplayedP d)
        else partitionFromPosition d.body v) = linesInDoc (.proj d)
      rw [if_neg (by omega),
        show linesInDoc (.proj d) = linesInDocP d from rfl, wfpn_linesInDocP hw]
      by_cases hgt : v > linesDisplayedP d
      · rw [if_pos hgt, show linesDisplayedP d = d.body.getD d.visible.length 0
          from wfpn_linesDisplayedP hw, pfp_at_end hw (le_refl _)]
      · rw [if_neg hgt, pfp_at_end hw hge]
    · intro h0 hlt
      rw [hld] at hlt
      have hnotgt : ¬(v > linesDisplayedP d) := by
        rw [show linesDisplayedP d = d.body.getD d.visible.length 0
          from wfpn_linesDisplayedP hw]
        omega
      have hdfd : docFromDisplay (.proj d) v = partitionFromPosition d.body v := by
        show (if v ≤ 0 then 0
          else if v > linesDisplayedP d then partitionFromPosition d.body (linesDisplayedP d)
          else partitionFromPosition d.body v) = _
        rw [if_neg (by omega), if_neg hnotgt]
      obtain ⟨r, hre, hrn, h1, h2, hvis⟩ := pfp_owner hw h0 hlt
      rw [hdfd, hre]
      refine ⟨by positivity, ?_, ?_, ?_, ?_⟩
      · rw [show linesInDoc (.proj d) = linesInDocP d from rfl, wfpn_linesInDocP hw]
        omega
      · show displayFromDocP d.body (r : Int) ≤ v
        rw [displayFromDocP_getD hb (by omega)]
        exact h1
      · show v < displayFromDocP d.body ((r : Int) + 1)
        rw [show (r : Int) + 1 = ((r + 1 : Nat) : Int) by push_cast; ring,
          displayFromDocP_getD hb (by omega)]
        exact h2
      · show getVisibleP d (r : Int) = true
        unfold getVisibleP
        rw [valueAtI_coe]
        exact hvis

/-- Claim C2, witness: the amended theorem at the projected one-line state of
height 2 and display row 1, landing on visible document line 0. -/
theorem C2_docFromDisplay_witness :
    0 ≤ docFromDisplay sTall 1 ∧ docFromDisplay sTall 1 < linesInDoc sTall ∧
    displayFromDoc sTall (docFromDisplay sTall 1) ≤ 1 ∧
    1 < displayFromDoc sTall (docFromDisplay sTall 1 + 1) ∧
    getVisible sTall (docFromDisplay sTall 1) = true :=
  ((C2_docFromDisplay sTall reachable_sTall 1).2 (by decide)).2.2 (by decide) (by decide)

/-! ## EnsureData preserves every observable -/

theorem ensure_getVisible {s : CState} (hc : CInv s) (l : Int) :
    getVisibleP (ensureDataP s) l = getVisible s l := by
  match s with
  | .oneToOne n =>
    show getVisibleP (ensureDataP (.oneToOne n)) l = true
    exact isDefault_getVisibleP (isDefault_ensure hc) l
  | .proj d => rfl

theorem ensure_getHeight {s : CState} (hc : CInv s) (l : Int) :
    valueAtI 1 (ensureDataP s).heights l = getHeight s l := by
  match s with
  | .oneToOne n =>
    show valueAtI 1 (ensureDataP (.oneToOne n)).heights l = 1
    exact isDefault_heights (isDefault_ensure hc) l
  | .proj d => rfl

theorem ensure_getExpanded {s : CState} (hc : CInv s) (l : Int) :
    valueAtI true (ensureDataP s).expanded l = getExpanded s l := by
  match s with
  | .oneToOne n =>
    show valueAtI true (ensureDataP (.oneToOne n)).expanded l = true
    exact isDefault_expanded (isDefault_ensure hc) l
  | .proj d => rfl

theorem ensure_linesInDocP {s : CState} (hc : CInv s) :
    linesInDocP (ensureDataP s) = linesInDoc s := by
  rw [wfpn_linesInDocP (wfpn_ensureDataP s hc)]
  have := cinv_linesInDoc_nonneg hc
  omega

/-! ## The SetVisible loop delta -/

/-- The signed display-row contribution of one line to a SetVisible call:
plus its height when it would turn visible, minus its height when it would
turn hidden, zero when it already has the target visibility. -/
def contribP (d : ProjData) (isVis : Bool) (l : Int) : Int :=
  if getVisibleP d l ≠ isVis
  then (if isVis then valueAtI 1 d.heights l else -(valueAtI 1 d.heights l))
  else 0

/-- One iteration of the SetVisible loop on the projected data: toggle the
flag and shift the boundaries when the line differs from the target,
otherwise leave the state unchanged. -/
def svStep (isVis : Bool) (m : Nat) (d : ProjData) : ProjData :=
  if getVisibleP d (m : Int) ≠ isVis
  then ⟨d.visible.set m isVis, d.expanded, d.heights, d.foldDisplayTexts,
        addAfter m (if isVis then d.heights.getD m 1 else -(d.heights.getD m 1)) d.body⟩
  else d

theorem svLoop_succ (isVis : Bool) (m c : Nat) (d : ProjData) (delta : Int) :
    svLoop isVis (m : Int) (c + 1) d delta =
      svLoop isVis ((m + 1 : Nat) : Int) c (svStep isVis m d)
        (delta + contribP d isVis (m : Int)) := by
  have hcast : (m : Int) + 1 = ((m + 1 : Nat) : Int) := by push_cast; ring
  rw [svLoop]
  unfold svStep contribP
  split
  next hne =>
    simp only [hcast, setValI_coe, insertTextP_coe, valueAtI_coe, getVisibleP]
  next hne =>
    rw [hcast, add_zero]

theorem contribP_svStep_ne {d : ProjData} {isVis : Bool} {m j : Nat} (hne : m ≠ j) :
    contribP (svStep isVis m d) isVis (j : Int) = contribP d isVis (j : Int) := by
  unfold svStep
  split
  · unfold contribP getVisibleP
    rw [show (⟨d.visible.set m isVis, d.expanded, d.heights, d.foldDisplayTexts,
      addAfter m (if isVis then d.heights.getD m 1 else -(d.heights.getD m 1))
        d.body⟩ : ProjData).visible = d.visible.set m isVis from rfl,
      show (⟨d.visible.set m isVis, d.expanded, d.heights, d.foldDisplayTexts,
      addAfter m (if isVis then d.heights.getD m 1 else -(d.heights.getD m 1))
        d.body⟩ : ProjData).heights = d.heights from rfl,
      valueAtI_coe true (d.visible.set m isVis) j, valueAtI_coe 1 d.heights j,
      valueAtI_coe true d.visible j, set_getD_ne hne]
  · rfl

theorem svLoop_delta {isVis : Bool} : ∀ (c m : Nat) (d : ProjData) (delta : Int),
    (svLoop isVis (m : Int) c d delta).2 =
      delta + ((List.range c).map
        (fun i : Nat => contribP d isVis ((m + i : Nat) : Int))).sum := by
  intro c
  induction c with
  | zero =>
    intro m d delta
    show delta = delta + ([] : List Int).sum
    simp
  | succ c ih =>
    intro m d delta
    have hsum : ∀ g : Nat → Int, ((List.range (c + 1)).map g).sum =
        g 0 + ((List.range c).map (fun i => g (i + 1))).sum := by
      intro g
      rw [List.range_succ_eq_map, List.map_cons, List.sum_cons, List.map_map]
      have hmm : (List.map (g ∘ Nat.succ) (List.range c)) =
          List.map (fun i => g (i + 1)) (List.range c) :=
        List.map_congr_left (fun i _ => rfl)
      rw [hmm]
    rw [svLoop_succ, ih (m + 1)]
    rw [hsum (fun i : Nat => contribP d isVis ((m + i : Nat) : Int))]
    have hmap : ((List.range c).map (fun i : Nat =>
        contribP (svStep isVis m d) isVis ((m + 1 + i : Nat) : Int))).sum =
        ((List.range c).map (fun i : Nat =>
          contribP d isVis ((m + (i + 1) : Nat) : Int))).sum := by
      congr 1
      apply List.map_congr_left
      intro i _
      rw [show m + 1 + i = m + (i + 1) by omega]
      exact contribP_svStep_ne (by omega)
    rw [hmap, show m + 0 = m from rfl]
    ring

/-! ## Claim C3 -/

/-- The summed signed display-row delta of a SetVisible request over the
closed range, phrased with the public observables: plus the height of each
line turned visible, minus the height of each line turned invisible. -/
def svDeltaSum (s : CState) (a b : Int) (isVis : Bool) : Int :=
  ((List.range (b - a + 1).toNat).map
    (fun i : Nat => if getVisible s (a + (i : Int)) ≠ isVis
      then (if isVis then getHeight s (a + (i : Int)) else -(getHeight s (a + (i : Int))))
      else 0)).sum

theorem getVisible_of_oneToOne {s : CState} (h : isOneToOne s = true) (l : Int) :
    getVisible s l = true := by
  match s with
  | .oneToOne n => rfl
  | .proj d => exact Bool.noConfusion h

theorem svDeltaSum_contrib {s : CState} (hc : CInv s) (m : Nat) (b : Int)
    (isVis : Bool) :
    svDeltaSum s (m : Int) b isVis =
      ((List.range (b - (m : Int) + 1).toNat).map
        (fun i : Nat => contribP (ensureDataP s) isVis ((m + i : Nat) : Int))).sum := by
  unfold svDeltaSum
  congr 1
  apply List.map_congr_left
  intro i _
  have hcast : (m : Int) + (i : Int) = ((m + i : Nat) : Int) := by push_cast; ring
  rw [hcast]
  unfold contribP
  rw [ensure_getVisible hc, ensure_getHeight hc]

/-- Claim C3 (confirmed): for a valid range, SetVisible returns true exactly
when the summed signed display-row delta over the range is nonzero. -/
theorem C3_setVisible_reports_delta (s : CState) (a b : Int) (isVis : Bool)
    (hs : Reachable s) (h0 : 0 ≤ a) (hab : a ≤ b) (hbn : b < linesInDoc s) :
    ((setVisible s a b isVis).2 = true ↔ svDeltaSum s a b isVis ≠ 0) := by
  have hc := reachable_cinv hs
  obtain ⟨m, rfl⟩ : ∃ m : Nat, a = (m : Int) := ⟨a.toNat, by omega⟩
  unfold setVisible
  split
  next hshort =>
    rw [Bool.and_eq_true] at hshort
    obtain ⟨h1, h2⟩ := hshort
    subst h2
    have hz : svDeltaSum s (m : Int) b true = 0 := by
      unfold svDeltaSum
      have hel : ∀ i ∈ List.range (b - (m : Int) + 1).toNat,
          (if getVisible s ((m : Int) + (i : Int)) ≠ true
            then (if true then getHeight s ((m : Int) + (i : Int))
              else -(getHeight s ((m : Int) + (i : Int)))) else 0) = (0 : Int) := by
        intro i _
        rw [getVisible_of_oneToOne h1]
        simp
      rw [List.map_congr_left hel, List.map_const']
      simp
    rw [hz]
    simp
  next hshort =>
    dsimp only
    split
    next hcond =>
      show decide ((svLoop isVis (m : Int) (b - (m : Int) + 1).toNat
        (ensureDataP s) 0).2 ≠ 0) = true ↔ _
      rw [decide_eq_true_eq, svLoop_delta, zero_add, svDeltaSum_contrib hc]
    next hcond =>
      exfalso
      apply hcond
      refine ⟨hab, by positivity, ?_⟩
      rw [ensure_linesInDocP hc]
      exact hbn

/-- Claim C3, witness: hiding the single line of the fresh state reports a
change, and the summed delta -1 is indeed nonzero. -/
theorem C3_setVisible_reports_delta_witness :
    (setVisible initial 0 0 false).2 = true ∧ svDeltaSum initial 0 0 false = -1 :=
  ⟨(C3_setVisible_reports_delta initial 0 0 false Reachable.base (by decide) (by decide)
      (by decide)).mpr (by decide), by decide⟩

/-! ## Claim C4 -/

theorem isDefault_docFromDisplay {d : ProjData} {n : Nat} (hd : IsDefault d n)
    {v : Int} (h0 : 0 ≤ v) (hvn : v ≤ (n : Int)) :
    docFromDisplay (.proj d) v = v := by
  have hw := isDefault_wfpn hd
  have hbody := hd.2.2.2.2.2
  have hbn : d.body.getD n 0 = (n : Int) := by
    rw [hbody n (by omega)]
    simp
  have hld : linesDisplayedP d = (n : Int) := isDefault_linesDisplayedP hd
  rcases eq_or_lt_of_le h0 with h0e | h0lt
  · show (if v ≤ 0 then 0
      else if v > linesDisplayedP d then partitionFromPosition d.body (linesDisplayedP d)
      else partitionFromPosition d.body v) = v
    rw [if_pos (by omega)]
    omega
  · show (if v ≤ 0 then 0
      else if v > linesDisplayedP d then partitionFromPosition d.body (linesDisplayedP d)
      else partitionFromPosition d.body v) = v
    rw [if_neg (by omega), hld, if_neg (by omega)]
    rcases eq_or_lt_of_le hvn with hvn2 | hvn2
    · rw [← hvn2] at hbn
      rw [pfp_at_end hw (le_of_eq hbn)]
      omega
    · obtain ⟨r, hre, hrn, h1, h2, _⟩ := pfp_owner hw h0lt (by rw [hbn]; omega)
      rw [hre]
      rw [hbody r (by omega)] at h1
      rw [hbody (r + 1) (by omega)] at h2
      have hm1 : min r n = r := by omega
      have hm2 : min (r + 1) n = r + 1 := by omega
      rw [hm1] at h1
      rw [hm2] at h2
      push_cast at h1 h2
      omega

/-- Claim C4, counterexample: SetVisible(0, 5, false) on the fresh one-line
trivial state has an invalid range (5 is not below LinesInDoc() = 1) and
duly returns false, but EnsureData has already materialized the projected
representation, and DocFromDisplay(-1) changes from -1 (trivial mode returns
the argument unchanged) to 0 (projected mode clamps), so not every
observable query result is unchanged. -/
theorem C4_counterexample :
    (setVisible initial 0 5 false).2 = false ∧
    docFromDisplay initial (-1) = -1 ∧
    docFromDisplay (setVisible initial 0 5 false).1 (-1) = 0 := by
  refine ⟨by decide, by decide, by decide⟩

/-- Claim C4 (amended): an invalid-range SetVisible returns false and leaves
LinesInDoc, LinesDisplayed, GetVisible, GetExpanded and GetHeight unchanged
for every line, DisplayFromDoc unchanged on nonnegative arguments and
DocFromDisplay unchanged on arguments between 0 and LinesDisplayed; when the
state was already projected the state is entirely unchanged (hence also
GetFoldDisplayText), but a call with isVisible false on a trivial state
materializes the projected representation, which alters DocFromDisplay and
DisplayFromDoc on out-of-range arguments and makes GetFoldDisplayText
defined where the trivial-mode call dereferences a null pointer. -/
theorem C4_invalid_setVisible (s : CState) (a b : Int) (isVis : Bool)
    (hs : Reachable s) (hinv : ¬(0 ≤ a ∧ a ≤ b ∧ b < linesInDoc s)) :
    (setVisible s a b isVis).2 = false ∧
    linesInDoc (setVisible s a b isVis).1 = linesInDoc s ∧
    linesDisplayed (setVisible s a b isVis).1 = linesDisplayed s ∧
    (∀ l, getVisible (setVisible s a b isVis).1 l = getVisible s l) ∧
    (∀ l, getExpanded (setVisible s a b isVis).1 l = getExpanded s l) ∧
    (∀ l, getHeight (setVisible s a b isVis).1 l = getHeight s l) ∧
    (∀ l, 0 ≤ l → displayFromDoc (setVisible s a b isVis).1 l = displayFromDoc s l) ∧
    (∀ v, 0 ≤ v → v ≤ linesDisplayed s →
      docFromDisplay (setVisible s a b isVis).1 v = docFromDisplay s v) ∧
    (isOneToOne s = false → (setVisible s a b isVis).1 = s) := by
  have hc := reachable_cinv hs
  unfold setVisible
  split
  next hshort =>
    rw [Bool.and_eq_true] at hshort
    refine ⟨rfl, rfl, rfl, fun l => rfl, fun l => rfl, fun l => rfl,
      fun l _ => rfl, fun v _ _ => rfl, fun hf => ?_⟩
    rw [hf] at hshort
  next hshort =>
    dsimp only
    split
    next hcond =>
      exfalso
      apply hinv
      refine ⟨hcond.2.1, hcond.1, ?_⟩
      rw [← ensure_linesInDocP hc]
      exact hcond.2.2
    next hcond =>
      match s with
      | .proj d =>
        exact ⟨rfl, rfl, rfl, fun l => rfl, fun l => rfl, fun l => rfl,
          fun l _ => rfl, fun v _ _ => rfl, fun _ => rfl⟩
      | .oneToOne n =>
        have hn : (0 : Int) ≤ n := hc
        have hd := isDefault_ensure hn
        have hnt : ((n.toNat : Nat) : Int) = n := by omega
        refine ⟨rfl, ?_, ?_, ?_, ?_, ?_, ?_, ?_, fun hf => Bool.noConfusion hf⟩
        · show linesInDocP (ensureDataP (.oneToOne n)) = n
          rw [isDefault_linesInDocP hd, hnt]
        · show linesDisplayedP (ensureDataP (.oneToOne n)) = n
          rw [isDefault_linesDisplayedP hd, hnt]
        · intro l
          exact isDefault_getVisibleP hd l
        · intro l
          exact isDefault_expanded hd l
        · intro l
          exact isDefault_heights hd l
        · intro l hl
          show displayFromDocP (ensureDataP (.oneToOne n)).body l = _
          rw [isDefault_displayFromDocP hd hl, hnt]
          rfl
        · intro v hv hvld
          rw [isDefault_docFromDisplay hd hv (by rw [hnt]; exact hvld)]
          rfl

/-- Claim C4, witness: an invalid range on an already-projected state returns
false and leaves the state unchanged. -/
theorem C4_invalid_setVisible_witness :
    (setVisible sTall 0 5 false).2 = false ∧ (setVisible sTall 0 5 false).1 = sTall :=
  ⟨(C4_invalid_setVisible sTall 0 5 false reachable_sTall (by decide)).1,
   (C4_invalid_setVisible sTall 0 5 false reachable_sTall (by decide)).2.2.2.2.2.2.2.2
     (by decide)⟩

/-! ## Claim C5 -/

theorem getHeight_of_oneToOne {s : CState} (h : isOneToOne s = true) (l : Int) :
    getHeight s l = 1 := by
  match s with
  | .oneToOne n => rfl
  | .proj d => exact Bool.noConfusion h

theorem ensure_linesDisplayed {s : CState} (hc : CInv s) :
    linesDisplayedP (ensureDataP s) = linesDisplayed s := by
  match s with
  | .oneToOne n =>
    show linesDisplayedP (ensureDataP (.oneToOne n)) = n
    have hn : (0 : Int) ≤ n := hc
    rw [isDefault_linesDisplayedP (isDefault_ensure hn)]
    omega
  | .proj d => rfl

/-- Claim C5, counterexample: on a projected two-line state with heights 2
and 1, the call SetHeight(-1, 5) has an out-of-range document line (negative)
but is not a no-op and does not return false: the only range test in the
source is lineDoc < LinesInDoc(), so the call reads the first run as the old
height, shifts the whole partition index, and returns true. -/
theorem C5_counterexample :
    (setHeight sHeight2 (-1) 5).2 = true ∧
    linesDisplayed sHeight2 = 3 ∧ linesDisplayed (setHeight sHeight2 (-1) 5).1 = 6 := by
  refine ⟨by decide, by decide, by decide⟩

/-- Claim C5 (amended): for 0 ≤ docLine < LinesInDoc(), SetHeight(docLine, h)
always updates the stored height regardless of visibility, changes
LinesDisplayed() by h minus the previous height when the line is visible and
not at all when it is invisible, and returns true iff h differs from the
previous height; for docLine at or beyond LinesInDoc() it is a no-op
returning false, and setting height 1 in trivial mode is a no-op returning
false.  The source does not reject a negative docLine (see the
counterexample), so out-of-range here covers only the upper side. -/
theorem linesDisplayedP_proj (vb eb : List Bool) (hh : List Int)
    (fb : List (Option String)) (bb : List Int) (N : Nat) (hlen : bb.length = N + 2) :
    linesDisplayedP ⟨vb, eb, hh, fb, bb⟩ = bb.getD N 0 := by
  unfold linesDisplayedP linesInDocP
  rw [show (⟨vb, eb, hh, fb, bb⟩ : ProjData).body = bb from rfl, hlen,
    show (((N + 2 : Nat) : Int) - 2) = ((N : Nat) : Int) by push_cast; ring,
    positionFromPartition_coe]

theorem C5_setHeight (s : CState) (l h : Int) (hs : Reachable s) :
    ((0 ≤ l ∧ l < linesInDoc s) →
      (getHeight (setHeight s l h).1 l = h ∧
       linesDisplayed (setHeight s l h).1 =
         linesDisplayed s + (if getVisible s l then h - getHeight s l else 0) ∧
       ((setHeight s l h).2 = true ↔ h ≠ getHeight s l))) ∧
    (linesInDoc s ≤ l → (setHeight s l h).1 = s ∧ (setHeight s l h).2 = false) ∧
    (isOneToOne s = true → h = 1 →
      (setHeight s l h).1 = s ∧ (setHeight s l h).2 = false) := by
  have hc := reachable_cinv hs
  unfold setHeight
  split
  next hshort =>
    rw [Bool.and_eq_true] at hshort
    obtain ⟨h1, h2⟩ := hshort
    have hq : h = 1 := eq_of_beq h2
    refine ⟨?_, fun _ => ⟨rfl, rfl⟩, fun _ _ => ⟨rfl, rfl⟩⟩
    intro hin
    subst hq
    rw [getHeight_of_oneToOne h1, getVisible_of_oneToOne h1]
    refine ⟨rfl, by simp, by simp⟩
  next hshort =>
    split
    next hlt =>
      have hwe := wfpn_ensureDataP s hc
      have hnn := cinv_linesInDoc_nonneg hc
      have hlde := ensure_linesDisplayed hc
      refine ⟨?_, fun hge => absurd hlt (by omega), fun h1 h2 => ?_⟩
      · intro hin
        obtain ⟨m, rfl⟩ : ∃ m : Nat, l = (m : Int) := ⟨l.toNat, by omega⟩
        have hm : m < (linesInDoc s).toNat := by omega
        have hlenh : (ensureDataP s).heights.length = (linesInDoc s).toNat :=
          hwe.lens.2.2.1
        have hlenb : (ensureDataP s).body.length = (linesInDoc s).toNat + 2 :=
          hwe.lens.2.2.2.2
        have hgh := ensure_getHeight hc (m : Int)
        have hgv := ensure_getVisible hc (m : Int)
        dsimp only
        split
        next hne =>
          cases hx : getVisibleP (ensureDataP s) (m : Int)
          · rw [if_neg (by decide)]
            refine ⟨?_, ?_, ?_⟩
            · show valueAtI 1 (setValI (m : Int) h (ensureDataP s).heights) (m : Int) = h
              rw [setValI_coe, valueAtI_coe, set_getD_self (by omega)]
            · show linesDisplayedP _ = _
              rw [linesDisplayedP_proj _ _ _ _ _ _ hlenb,
                ← wfpn_linesDisplayedP hwe, hlde, ← hgv, hx]
              simp
            · refine iff_of_true rfl (fun hq => ?_)
              rw [← hgh] at hq
              exact hne hq.symm
          · rw [if_pos (by decide)]
            refine ⟨?_, ?_, ?_⟩
            · show valueAtI 1 (setValI (m : Int) h (ensureDataP s).heights) (m : Int) = h
              rw [setValI_coe, valueAtI_coe, set_getD_self (by omega)]
            · show linesDisplayedP _ = _
              rw [linesDisplayedP_proj _ _ _ _
                (insertTextP (m : Int)
                  (h - valueAtI 1 (ensureDataP s).heights (m : Int)) (ensureDataP s).body)
                (linesInDoc s).toNat (by rw [insertTextP_coe, addAfter_length]; exact hlenb),
                insertTextP_coe,
                addAfter_getD_gt (by omega) (by rw [hlenb]; omega),
                ← wfpn_linesDisplayedP hwe, hlde, ← hgv, hx, if_pos rfl, ← hgh]
            · refine iff_of_true rfl (fun hq => ?_)
              rw [← hgh] at hq
              exact hne hq.symm
        next hne =>
          push_neg at hne
          refine ⟨?_, ?_, ?_⟩
          · show valueAtI 1 (ensureDataP s).heights (m : Int) = h
            rw [hne]
          · show linesDisplayedP (ensureDataP s) = _
            rw [hlde, ← hgh, hne]
            split <;> ring
          · rw [← hgh, hne]
            simp
      · rw [h1] at hshort
        have hcontra : (true && (h == 1)) = true := by
          rw [h2]
          decide
        exact absurd hcontra hshort
    next hge =>
      refine ⟨fun hin => absurd hin.2 hge, fun _ => ⟨rfl, rfl⟩, fun h1 h2 => ?_⟩
      rw [h1] at hshort
      have hcontra : (true && (h == 1)) = true := by
        rw [h2]
        decide
      exact absurd hcontra hshort

/-- Claim C5, witness: the amended theorem at the in-range call
SetHeight(0, 3) on the fresh state, which raises LinesDisplayed() by 2. -/
theorem C5_setHeight_witness :
    getHeight (setHeight initial 0 3).1 0 = 3 ∧
    linesDisplayed (setHeight initial 0 3).1 =
      linesDisplayed initial + (if getVisible initial 0 then 3 - getHeight initial 0 else 0) ∧
    ((setHeight initial 0 3).2 = true ↔ (3 : Int) ≠ getHeight initial 0) :=
  (C5_setHeight initial 0 3 Reachable.base).1 (by decide)

/-! ## Claim C6: InsertLines then DeleteLines is the identity -/

theorem delAt_insAt {p : Nat} {v : α} {l : List α} (h : p ≤ l.length) :
    delAt p (insAt p v l) = l := by
  induction p generalizing l with
  | zero => rfl
  | succ p ih =>
    cases l with
    | nil => simp at h
    | cons x xs =>
      show x :: delAt p (insAt p v xs) = x :: xs
      rw [ih (by simpa using h)]

theorem delAt_set {p : Nat} {v : α} {l : List α} :
    delAt p (l.set p v) = delAt p l := by
  induction p generalizing l with
  | zero =>
    cases l with
    | nil => rfl
    | cons x xs => rfl
  | succ p ih =>
    cases l with
    | nil => rfl
    | cons x xs =>
      show x :: delAt p (xs.set p v) = x :: delAt p xs
      rw [ih]

theorem delAt_delAt (p : Nat) (l : List α) :
    delAt p (delAt p l) = delAt p (delAt (p + 1) l) := by
  induction p generalizing l with
  | zero =>
    cases l with
    | nil => rfl
    | cons x xs =>
      cases xs with
      | nil => rfl
      | cons y t => rfl
  | succ p ih =>
    cases l with
    | nil => rfl
    | cons x xs =>
      show x :: delAt p (delAt p xs) = x :: delAt p (delAt (p + 1) xs)
      rw [ih]

theorem delAt_addAfter_swap : ∀ (p : Nat) (x y : Int) (b : List Int), p + 1 < b.length →
    delAt p (addAfter p x (delAt p (addAfter p y b))) =
    delAt p (addAfter p y (delAt (p + 1) (addAfter (p + 1) x b))) := by
  intro p
  induction p with
  | zero =>
    intro x y b hb
    cases b with
    | nil => simp at hb
    | cons b0 t =>
      cases t with
      | nil => simp at hb
      | cons b1 t =>
        simp only [addAfter, delAt, List.map_cons, List.map_map]
        exact List.map_congr_left (fun z _ => by
          show z + y + x = z + x + y
          ring)
  | succ p ih =>
    intro x y b hb
    cases b with
    | nil => simp at hb
    | cons b0 t =>
      simp only [addAfter, delAt]
      rw [ih x y t (by simpa using hb)]

theorem deleteLineP_insertLineP {n p : Nat} {d : ProjData} (hl : Lens d n) (hp : p ≤ n) :
    deleteLineP (insertLineP d (p : Int)) (p : Int) = d := by
  obtain ⟨dv, de, dh, df, db⟩ := d
  obtain ⟨hv, he, hh, hf, hb⟩ := hl
  dsimp only at hv he hh hf hb
  rw [insertLineP_eq]
  dsimp only
  rw [deleteLineP_eq]
  have hsp : spanB ⟨(insAt p true dv).set p true, (insAt p true de).set p true,
      (insAt p (1 : Int) dh).set p 1, (insAt p (none : Option String) df).set p none,
      addAfter p 1 (insAt p (displayFromDocP db (p : Int)) db)⟩ p = 1 := by
    show (if ((insAt p true dv).set p true).getD p true = true
      then ((insAt p (1 : Int) dh).set p 1).getD p 1 else 0) = 1
    rw [insSet_getD_self (by omega), insSet_getD_self (by omega), if_pos rfl]
  dsimp only
  rw [hsp]
  simp only [ProjData.mk.injEq]
  refine ⟨?_, ?_, ?_, ?_, ?_⟩
  · rw [delAt_set, delAt_insAt (by omega)]
  · rw [delAt_set, delAt_insAt (by omega)]
  · rw [delAt_set, delAt_insAt (by omega)]
  · rw [delAt_set, delAt_insAt (by omega)]
  · rw [addAfter_addAfter, show ((1 : Int) + -1) = 0 by ring, addAfter_zero,
      delAt_insAt (by omega)]

theorem deleteLineP_swap {n p : Nat} {d : ProjData} (hl : Lens d n) (hp : p + 2 ≤ n) :
    deleteLineP (deleteLineP d (p : Int)) (p : Int) =
    deleteLineP (deleteLineP d ((p + 1 : Nat) : Int)) (p : Int) := by
  obtain ⟨hv, he, hh, hf, hb⟩ := hl
  rw [deleteLineP_eq d p, deleteLineP_eq d (p + 1), deleteLineP_eq, deleteLineP_eq]
  dsimp only
  have hX : spanB ⟨delAt p d.visible, delAt p d.expanded, delAt p d.heights,
      delAt p d.foldDisplayTexts, delAt p (addAfter p (-(spanB d p)) d.body)⟩ p =
      spanB d (p + 1) := by
    show (if (delAt p d.visible).getD p true = true
      then (delAt p d.heights).getD p 1 else 0) = _
    rw [delAt_getD_ge (le_refl p), delAt_getD_ge (le_refl p)]
    rfl
  have hY : spanB ⟨delAt (p + 1) d.visible, delAt (p + 1) d.expanded,
      delAt (p + 1) d.heights, delAt (p + 1) d.foldDisplayTexts,
      delAt (p + 1) (addAfter (p + 1) (-(spanB d (p + 1))) d.body)⟩ p = spanB d p := by
    show (if (delAt (p + 1) d.visible).getD p true = true
      then (delAt (p + 1) d.heights).getD p 1 else 0) = _
    rw [delAt_getD_lt (by omega), delAt_getD_lt (by omega)]
    rfl
  rw [hX, hY]
  simp only [ProjData.mk.injEq]
  refine ⟨delAt_delAt p _, delAt_delAt p _, delAt_delAt p _, delAt_delAt p _, ?_⟩
  exact delAt_addAfter_swap p (-(spanB d (p + 1))) (-(spanB d p)) d.body (by omega)

theorem delLinesGoP_shift : ∀ (k n p : Nat) (d : ProjData), Lens d n → p + k + 1 ≤ n →
    delLinesGoP (p : Int) k (deleteLineP d (p : Int)) =
    deleteLineP (delLinesGoP ((p + 1 : Nat) : Int) k d) (p : Int) := by
  intro k
  induction k with
  | zero => intro n p d _ _; rfl
  | succ k ih =>
    intro n p d hl hpk
    show delLinesGoP (p : Int) k (deleteLineP (deleteLineP d (p : Int)) (p : Int)) =
      deleteLineP (delLinesGoP ((p + 1 : Nat) : Int) k
        (deleteLineP d ((p + 1 : Nat) : Int))) (p : Int)
    rw [deleteLineP_swap hl (by omega)]
    obtain ⟨n2, rfl⟩ : ∃ n2, n = n2 + 1 := ⟨n - 1, by omega⟩
    exact ih n2 p (deleteLineP d ((p + 1 : Nat) : Int))
      (lens_deleteLineP hl (by omega)) (by omega)

theorem insDel_id : ∀ (k p n : Nat) (d : ProjData), Lens d n → p ≤ n →
    delLinesGoP (p : Int) k (insLinesGoP (p : Int) k d) = d := by
  intro k
  induction k with
  | zero => intro p n d _ _; rfl
  | succ k ih =>
    intro p n d hl hp
    have hcast : (p : Int) + 1 = ((p + 1 : Nat) : Int) := by push_cast; ring
    show delLinesGoP (p : Int) k
      (deleteLineP (insLinesGoP ((p : Int) + 1) k (insertLineP d (p : Int))) (p : Int)) = d
    rw [hcast]
    have hlT : Lens (insLinesGoP ((p + 1 : Nat) : Int) k (insertLineP d (p : Int)))
        ((n + 1) + k) :=
      lens_insLinesGoP (lens_insertLineP hl hp) (by omega)
    rw [delLinesGoP_shift k ((n + 1) + k) p _ hlT (by omega)]
    rw [ih (p + 1) (n + 1) (insertLineP d (p : Int)) (lens_insertLineP hl hp) (by omega)]
    exact deleteLineP_insertLineP hl hp

/-- Claim C6 (confirmed): inserting k lines at a valid position p and then
deleting k lines at p restores the state exactly, hence LinesInDoc(),
LinesDisplayed(), and the visibility, expansion, height and fold-label
values of every surviving line. -/
theorem C6_insert_delete_inverse (s : CState) (p k : Int) (hs : Reachable s)
    (hp : 0 ≤ p) (hpn : p ≤ linesInDoc s) (hk : 0 ≤ k) :
    deleteLines (insertLines s p k) p k = s := by
  have hc := reachable_cinv hs
  obtain ⟨m, rfl⟩ : ∃ m : Nat, p = (m : Int) := ⟨p.toNat, by omega⟩
  match s with
  | .oneToOne n =>
    show CState.oneToOne (n + (k.toNat : Int) - (k.toNat : Int)) = .oneToOne n
    rw [show n + (k.toNat : Int) - (k.toNat : Int) = n by ring]
  | .proj d =>
    have hw : WFPn d d.visible.length := hc
    have hmn : m ≤ d.visible.length := by
      rw [show linesInDoc (.proj d) = linesInDocP d from rfl, wfpn_linesInDocP hw] at hpn
      omega
    show CState.proj (delLinesGoP (m : Int) k.toNat (insLinesGoP (m : Int) k.toNat d)) =
      .proj d
    rw [insDel_id k.toNat m d.visible.length d hw.lens hmn]

/-- Claim C6, witness: inserting two lines at 0 in the projected folded state
and deleting them again restores the state. -/
theorem C6_insert_delete_inverse_witness :
    deleteLines (insertLines sFold 0 2) 0 2 = sFold :=
  C6_insert_delete_inverse sFold 0 2 reachable_sFold (by decide) (by decide) (by decide)

/-! ## Claim C7 -/

/-- A projected state carrying non-default data of every kind: five lines,
lines 1 and 2 hidden, a fold label on line 2, height 2 on line 3. -/
def s7 : CState :=
  (setHeight (setFoldDisplayText sFold 2 (some "xx")).1 3 2).1

/-- Claim C7 (code_bug evidence): ShowAll() preserves LinesInDoc(), returns
to the trivial representation, and afterwards LinesDisplayed() equals
LinesInDoc(), HiddenLines() is false, GetVisible / GetExpanded / GetHeight
report the defaults for every line, fold labels and heights are not
preserved, and a second ShowAll() changes nothing.  The one divergence from
the claim: GetFoldDisplayText in the resulting trivial state evaluates to
the undefined-behavior marker (the outer none), not to a stored empty label
(some none), because the source dereferences the null foldDisplayTexts
unique_ptr without a OneToOne() guard. -/
theorem C7_showAll_reset :
    linesInDoc s7 = 5 ∧ getFoldDisplayText s7 2 = some (some "xx") ∧
    getHeight s7 3 = 2 ∧ hiddenLines s7 = true ∧
    showAll s7 = CState.oneToOne 5 ∧
    linesInDoc (showAll s7) = 5 ∧ linesDisplayed (showAll s7) = 5 ∧
    hiddenLines (showAll s7) = false ∧
    (∀ l : Int, getVisible (showAll s7) l = true) ∧
    (∀ l : Int, getExpanded (showAll s7) l = true) ∧
    (∀ l : Int, getHeight (showAll s7) l = 1) ∧
    (∀ l : Int, getFoldDisplayText (showAll s7) l = none) ∧
    showAll (showAll s7) = showAll s7 := by
  refine ⟨by decide, by decide, by decide, by decide, by decide, by decide, by decide,
    by decide, fun l => rfl, fun l => rfl, fun l => rfl, fun l => rfl, by decide⟩

/-! ## Claim C8 -/

/-- One line, an empty fold label stored, the line collapsed. -/
def s8 : CState :=
  (setExpanded (setFoldDisplayText initial 0 (some "")).1 0 false).1

/-- Claim C8, counterexample: line 0 is collapsed and its stored fold label
is the empty string, which is not a non-empty string, yet
GetFoldDisplayTextShown(0) returns true: the source tests only that the
label pointer is non-null, and an owned copy of the empty string is
non-null. -/
theorem C8_counterexample :
    getFoldDisplayTextShown s8 0 = true ∧ getFoldDisplayText s8 0 = some (some "") := by
  refine ⟨by decide, by decide⟩

/-- Claim C8 (amended): GetFoldDisplayTextShown(docLine) is true iff the line
is not expanded and a fold label is stored for it (a non-null pointer,
possibly the empty string); setting the line expanded again makes it false
without clearing the stored label text. -/
theorem C8_shown (s : CState) (l : Int) (hs : Reachable s) :
    (getFoldDisplayTextShown s l = true ↔
      (getExpanded s l = false ∧ ∃ t : String, getFoldDisplayText s l = some (some t))) ∧
    (0 ≤ l → l < linesInDoc s →
      getFoldDisplayTextShown (setExpanded s l true).1 l = false ∧
      getFoldDisplayText (setExpanded s l true).1 l = getFoldDisplayText s l) := by
  have hc := reachable_cinv hs
  constructor
  · unfold getFoldDisplayTextShown
    cases hx : getExpanded s l
    · cases hf : getFoldDisplayText s l with
      | none =>
        simp [hf]
      | some o =>
        cases o with
        | none => simp [hf]
        | some t =>
          simp [hf]
    · simp
  · intro h0 hln
    match s, hc, hln with
    | .oneToOne n, hc, hln =>
      exact ⟨rfl, rfl⟩
    | .proj d, hc, hln =>
      obtain ⟨m, rfl⟩ : ∃ m : Nat, l = (m : Int) := ⟨l.toNat, by omega⟩
      have hw : WFPn d d.visible.length := hc
      have hmlt : m < d.expanded.length := by
        have h1 := hw.lens.2.1
        have h2 := hw.lens.2.2.2.2
        have : linesInDoc (.proj d) = (d.visible.length : Int) := by
          show (d.body.length : Int) - 2 = _
          omega
        omega
      have hset : setExpanded (.proj d) (m : Int) true =
          (if true ≠ valueAtI true d.expanded (m : Int) then
            (.proj { d with expanded := setValI (m : Int) true d.expanded }, true)
          else (.proj d, false)) := rfl
      rw [hset]
      split
      next hne =>
        constructor
        · show (!(valueAtI true (setValI (m : Int) true d.expanded) (m : Int)) &&
            ((getFoldDisplayText
              (.proj { d with expanded := setValI (m : Int) true d.expanded })
              (m : Int)).getD none).isSome) = false
          rw [setValI_coe, valueAtI_coe, set_getD_self (by simpa using hmlt)]
          rfl
        · rfl
      next hne =>
        push_neg at hne
        constructor
        · show (!(valueAtI true d.expanded (m : Int)) &&
            ((getFoldDisplayText (.proj d) (m : Int)).getD none).isSome) = false
          rw [← hne]
          rfl
        · rfl

/-- Witness: the amended C8 statement applied at the concrete state s8 and
line 0: shown is true there (collapsed, label present even though empty),
and SetExpanded(0, true) makes it false while keeping the stored label. -/
theorem C8_shown_witness :
    getFoldDisplayTextShown s8 0 = true ∧
    getFoldDisplayTextShown (setExpanded s8 0 true).1 0 = false ∧
    getFoldDisplayText (setExpanded s8 0 true).1 0 = getFoldDisplayText s8 0 := by
  have h := C8_shown s8 0
    (Reachable.setExpanded _ 0 false
      (Reachable.setFoldDisplayText _ 0 (some "") Reachable.base))
  exact ⟨h.1.mpr ⟨by decide, "", by decide⟩,
    (h.2 (by decide) (by decide)).1, (h.2 (by decide) (by decide)).2⟩

/-! ## Claim C9 -/

/-- One line whose stored fold label is the empty string. -/
def s9 : CState := (setFoldDisplayText initial 0 (some "")).1

/-- Claim C9, counterexample: the previously stored label is the empty
string; under the claim, an empty previous value counts as no previous
text, so storing the empty string again is a change and should report true;
the source compares with strcmp, the empty string equals itself
byte-for-byte, and the call reports false. -/
theorem C9_counterexample :
    getFoldDisplayText s9 0 = some (some "") ∧
    (setFoldDisplayText s9 0 (some "")).2 = false := by
  refine ⟨by decide, by decide⟩

/-- Bridge: the fold label the materialized data holds at a line is the
observable label of the original state, with the trivial-mode undefined
read collapsing to the null label the freshly built store actually holds. -/
theorem ensure_getFoldText {s : CState} (hc : CInv s) (l : Int) :
    foldAtI (ensureDataP s).foldDisplayTexts l = (getFoldDisplayText s l).getD none := by
  match s with
  | .oneToOne n =>
    show foldAtI (ensureDataP (.oneToOne n)).foldDisplayTexts l = none
    exact isDefault_folds (isDefault_ensure hc) l
  | .proj d => rfl

/-- Claim C9 (amended): for an in-range line, SetFoldDisplayText stores an
owned copy of the text (a subsequent GetFoldDisplayText returns it) and
returns true iff the previous value is null, or the NEW text is null, or the
bytes differ; a null and an empty previous value are NOT merged (an empty
previous label equal to the new text reports false), and a null new text
always reports true even when the previous value was already null. -/
theorem C9_setFoldDisplayText (s : CState) (l : Int) (txt : Option String)
    (hs : Reachable s) (h0 : 0 ≤ l) (hln : l < linesInDoc s) :
    getFoldDisplayText (setFoldDisplayText s l txt).1 l = some txt ∧
    ((setFoldDisplayText s l txt).2 = true ↔
      ((getFoldDisplayText s l).getD none = none ∨ txt = none ∨
        (getFoldDisplayText s l).getD none ≠ txt)) := by
  have hc := reachable_cinv hs
  obtain ⟨m, rfl⟩ : ∃ m : Nat, l = (m : Int) := ⟨l.toNat, by omega⟩
  have hw := wfpn_ensureDataP s hc
  have hnn := cinv_linesInDoc_nonneg hc
  have hmlt : m < (ensureDataP s).foldDisplayTexts.length := by
    rw [hw.lens.2.2.2.1]
    omega
  have hprev : foldAtI (ensureDataP s).foldDisplayTexts (m : Int) =
      (getFoldDisplayText s (m : Int)).getD none := ensure_getFoldText hc _
  unfold setFoldDisplayText
  dsimp only
  rw [hprev]
  split
  next hcond =>
    simp only [Bool.or_eq_true, Option.isNone_iff_eq_none, decide_eq_true_eq] at hcond
    constructor
    · show some (foldAtI (setValI (m : Int) txt (ensureDataP s).foldDisplayTexts)
        (m : Int)) = some txt
      rw [setValI_coe, foldAtI_coe, set_getD_self hmlt]
    · simp only [true_iff]
      tauto
  next hcond =>
    simp only [Bool.or_eq_true, Option.isNone_iff_eq_none, decide_eq_true_eq] at hcond
    push_neg at hcond
    constructor
    · show some (foldAtI (ensureDataP s).foldDisplayTexts (m : Int)) = some txt
      rw [hprev, hcond.2]
    · constructor
      · intro hf
        exact absurd hf (by simp)
      · intro hr
        rcases hr with h | h | h
        · exact absurd h hcond.1.1
        · exact absurd h hcond.1.2
        · exact absurd hcond.2 h

/-- Witness: the amended C9 statement applied at the state s9 (stored label
is the empty string) storing the one-byte label x: the new label is stored
and the call reports true because the bytes differ. -/
theorem C9_setFoldDisplayText_witness :
    getFoldDisplayText (setFoldDisplayText s9 0 (some "x")).1 0 = some (some "x") ∧
    (setFoldDisplayText s9 0 (some "x")).2 = true := by
  have h := C9_setFoldDisplayText s9 0 (some "x")
    (Reachable.setFoldDisplayText _ 0 (some "") Reachable.base) (by decide) (by decide)
  exact ⟨h.1, h.2.mpr (Or.inr (Or.inr (by decide)))⟩

/-! ## Claim C10 -/

/-- Characterization of the bounded run scan: starting at j with fuel steps,
the result e satisfies j ≤ e ≤ j + fuel, every index in [j, e) still holds
the run value, and when the scan stopped short of its fuel the index e holds
a different value. -/
theorem endRunFrom_spec (xs : List Bool) (v : Bool) (fuel : Nat) : ∀ j : Nat,
    j ≤ endRunFrom xs v fuel j ∧ endRunFrom xs v fuel j ≤ j + fuel ∧
    (∀ t, j ≤ t → t < endRunFrom xs v fuel j → xs.getD t true = v) ∧
    (endRunFrom xs v fuel j < j + fuel → xs.getD (endRunFrom xs v fuel j) true ≠ v) := by
  induction fuel with
  | zero =>
    intro j
    rw [show endRunFrom xs v 0 j = j from rfl]
    exact ⟨le_rfl, by omega, fun t h1 h2 => absurd h2 (by omega),
      fun h => absurd h (by omega)⟩
  | succ fuel ih =>
    intro j
    rw [show endRunFrom xs v (fuel + 1) j =
      if xs.getD j true = v then endRunFrom xs v fuel (j + 1) else j from rfl]
    split
    next hx =>
      obtain ⟨h1, h2, h3, h4⟩ := ih (j + 1)
      refine ⟨by omega, by omega, ?_, ?_⟩
      · intro t ht1 ht2
        rcases Nat.eq_or_lt_of_le ht1 with rfl | ht1
        · exact hx
        · exact h3 t (by omega) ht2
      · intro hlt
        exact h4 (by omega)
    next hx =>
      exact ⟨le_rfl, by omega, fun t h1 h2 => absurd h2 (by omega), fun _ => hx⟩

/-- Claim C10: ContractedNext(lineDocStart) returns -1 in trivial mode; in
projected mode, for an in-range line, it returns the line itself when the
line is not expanded, and otherwise the first later document line whose
expansion flag differs (that is, the next contracted line) when one exists
before the end of the document, and -1 when every later line is expanded. -/
theorem C10_contractedNext (s : CState) (l : Int) (hs : Reachable s) :
    (isOneToOne s = true → contractedNext s l = -1) ∧
    (isOneToOne s = false → 0 ≤ l → l < linesInDoc s →
      (getExpanded s l = false → contractedNext s l = l) ∧
      (getExpanded s l = true →
        ((∀ j : Int, l < j → j < linesInDoc s → getExpanded s j = true) →
          contractedNext s l = -1) ∧
        (∀ j : Int, l < j → j < linesInDoc s → getExpanded s j = false →
          (∀ i : Int, l < i → i < j → getExpanded s i = true) →
          contractedNext s l = j))) := by
  have hc := reachable_cinv hs
  constructor
  · intro h1
    match s, h1 with
    | .oneToOne n, _ => rfl
  · intro h1 h0 hln
    match s, h1, hc, hln with
    | .proj d, _, hc, hln =>
      obtain ⟨m, rfl⟩ : ∃ m : Nat, l = (m : Int) := ⟨l.toNat, by omega⟩
      have hw : WFPn d d.visible.length := hc
      have hexplen : d.expanded.length = d.visible.length := hw.lens.2.1
      have hlinP : linesInDocP d = (d.visible.length : Int) := by
        have := hw.lens.2.2.2.2
        show (d.body.length : Int) - 2 = _
        omega
      have hln2 : (m : Int) < linesInDocP d := hln
      have hmn : m < d.visible.length := by omega
      have htn : ((m : Int)).toNat = m := Int.toNat_natCast m
      have hred : contractedNext (.proj d) (m : Int) =
          (if !(valueAtI true d.expanded (m : Int)) then (m : Int)
           else if ((endRun d.expanded ((m : Int)).toNat : Nat) : Int) < linesInDocP d
             then ((endRun d.expanded ((m : Int)).toNat : Nat) : Int) else -1) := rfl
      constructor
      · intro hne
        have hv : valueAtI true d.expanded (m : Int) = false := hne
        show contractedNext (.proj d) (m : Int) = (m : Int)
        rw [hred, hv]
        rfl
      · intro hyes
        have hv : valueAtI true d.expanded (m : Int) = true := hyes
        have hgd : d.expanded.getD m true = true := by
          rw [← valueAtI_coe]
          exact hyes
        obtain ⟨h1e, h2e, h3e, h4e⟩ :=
          endRunFrom_spec d.expanded (d.expanded.getD m true)
            (d.expanded.length - (m + 1)) (m + 1)
        have heq : endRunFrom d.expanded (d.expanded.getD m true)
            (d.expanded.length - (m + 1)) (m + 1) = endRun d.expanded m := rfl
        rw [heq] at h1e h2e h3e h4e
        set e := endRun d.expanded m with he
        have hen : e ≤ d.visible.length := by omega
        constructor
        · intro hall
          have hEn : e = d.visible.length := by
            by_contra hne2
            have hlt : e < d.expanded.length := by omega
            have hd := h4e (by omega)
            have hx := hall (e : Int) (by omega)
              (by rw [show linesInDoc (.proj d) = linesInDocP d from rfl, hlinP]; omega)
            have : d.expanded.getD e true = true := by
              rw [← valueAtI_coe]
              exact hx
            rw [this, hgd] at hd
            exact hd rfl
          show contractedNext (.proj d) (m : Int) = -1
          rw [hred, hv]
          rw [if_neg (by decide)]
          rw [htn, ← he]
          rw [if_neg (by rw [hlinP, hEn]; omega)]
        · intro j hj1 hj2 hjf hprev2
          obtain ⟨jm, rfl⟩ : ∃ jm : Nat, j = (jm : Int) := ⟨j.toNat, by omega⟩
          have hmjm : m < jm := by omega
          have hjmn : jm < d.visible.length := by
            rw [show linesInDoc (.proj d) = linesInDocP d from rfl, hlinP] at hj2
            omega
          have hjd : d.expanded.getD jm true = false := by
            rw [← valueAtI_coe]
            exact hjf
          have hle : e ≤ jm := by
            by_contra hgt
            have := h3e jm (by omega) (by omega)
            rw [hjd, hgd] at this
            exact Bool.noConfusion this
          have hge : jm ≤ e := by
            by_contra hlt2
            have hd := h4e (by omega)
            have hx := hprev2 (e : Int) (by omega) (by omega)
            have : d.expanded.getD e true = true := by
              rw [← valueAtI_coe]
              exact hx
            rw [this, hgd] at hd
            exact hd rfl
          have hEj : e = jm := by omega
          show contractedNext (.proj d) (m : Int) = (jm : Int)
          rw [hred, hv]
          rw [if_neg (by decide)]
          rw [htn, ← he]
          rw [if_pos (by rw [hlinP, hEj]; omega)]
          rw [hEj]

/-- The five-line document with line 2 contracted. -/
def s10 : CState := (setExpanded (insertLines initial 0 4) 2 false).1

/-- Witness: C10 applied at the concrete state s10 and line 0, an expanded
line followed by the contracted line 2: ContractedNext(0) returns 2. -/
theorem C10_contractedNext_witness : contractedNext s10 0 = 2 := by
  have h := C10_contractedNext s10 0
    (Reachable.setExpanded _ 2 false
      (Reachable.insertLines _ 0 4 Reachable.base (by decide) (by decide)))
  exact ((h.2 (by decide) (by decide) (by decide)).2 (by decide)).2 2 (by decide)
    (by decide) (by decide)
    (fun i h1 h2 => by
      have hi : i = 1 := by omega
      rw [hi]
      decide)
